import Mathlib

set_option maxHeartbeats 1000000
set_option maxRecDepth 100000

namespace VibeStreamer

/-! Shallow embedding of the HLS playlist transformation engine of this
    repository: the m3u8 tag model with parser and encoder, the ad break
    injector of src/src/ads.ts, and the VOD fitter / live windower /
    master rewriter of src/src/streamer.ts.  JS numbers are modelled as
    exact rationals; JS string scanning is modelled over lists of
    characters so that every definition evaluates by kernel reduction. -/

/-- A raw text line, as a list of characters. -/
abbrev Line := List Char

/-- ASCII whitespace, as trimmed by the JS String trim method (the exotic
    Unicode space characters never occur in the playlists handled here). -/
def isJsSpace (c : Char) : Bool :=
  c == ' ' || c == '\t' || c == '\n' || c == '\r' || c == '\x0b' || c == '\x0c'

/-- Model of JS String.prototype.trim. -/
def jsTrim (l : Line) : Line :=
  ((l.dropWhile isJsSpace).reverse.dropWhile isJsSpace).reverse

/-- Splitting on the regex of one optional CR followed by LF, as in
    content.split followed by the parser loop of parseM3U8. -/
def splitLinesJS : Line → List Line
  | [] => [[]]
  | '\r' :: '\n' :: rest => [] :: splitLinesJS rest
  | '\n' :: rest => [] :: splitLinesJS rest
  | c :: rest =>
    match splitLinesJS rest with
    | h :: t => (c :: h) :: t
    | [] => [[c]]

/-- Joining lines with a single LF, as in the encoder join. -/
def joinLinesJS : List Line → Line
  | [] => []
  | [l] => l
  | l :: rest => l ++ '\n' :: joinLinesJS rest

/-- Split a character list at every occurrence of a separator. -/
def splitOnChar (sep : Char) : Line → List Line
  | [] => [[]]
  | c :: rest =>
    match splitOnChar sep rest with
    | h :: t => if c = sep then [] :: h :: t else (c :: h) :: t
    | [] => [[c]]

/-- Join character chunks with a comma: models Array.prototype.join. -/
def joinComma : List Line → Line
  | [] => []
  | [l] => l
  | l :: rest => l ++ ',' :: joinComma rest

/-- Numeric value of a list of decimal digit characters. -/
def digitsToNat : Line → Nat → Nat
  | [], acc => acc
  | c :: rest, acc => digitsToNat rest (acc * 10 + (c.toNat - '0'.toNat))

/-- Model of JS parseFloat on a decimal literal: optional sign, integer
    digits, optional fraction, optional decimal exponent.  An input with no
    leading numeric prefix yields NaN in JS; that case is modelled as 0 and
    is never relied upon by any theorem below. -/
def jsParseFloat (l : Line) : ℚ :=
  let l := l.dropWhile isJsSpace
  let (sgn, l) : ℚ × Line :=
    match l with
    | '-' :: rest => (-1, rest)
    | '+' :: rest => (1, rest)
    | _ => (1, l)
  let intPart := l.takeWhile Char.isDigit
  let l2 := l.drop intPart.length
  let (fracPart, l3) : Line × Line :=
    match l2 with
    | '.' :: rest => (rest.takeWhile Char.isDigit, rest.drop ((rest.takeWhile Char.isDigit).length))
    | _ => ([], l2)
  if intPart = [] ∧ fracPart = [] then 0
  else
    let base : ℚ := (digitsToNat intPart 0 : ℚ) + (digitsToNat fracPart 0 : ℚ) / ((10 : ℚ) ^ fracPart.length)
    let expo : ℤ :=
      match l3 with
      | 'e' :: '-' :: ds => -(digitsToNat (ds.takeWhile Char.isDigit) 0 : ℤ)
      | 'E' :: '-' :: ds => -(digitsToNat (ds.takeWhile Char.isDigit) 0 : ℤ)
      | 'e' :: '+' :: ds => (digitsToNat (ds.takeWhile Char.isDigit) 0 : ℤ)
      | 'E' :: '+' :: ds => (digitsToNat (ds.takeWhile Char.isDigit) 0 : ℤ)
      | 'e' :: ds => (digitsToNat (ds.takeWhile Char.isDigit) 0 : ℤ)
      | 'E' :: ds => (digitsToNat (ds.takeWhile Char.isDigit) 0 : ℤ)
      | _ => 0
    sgn * base * (10 : ℚ) ^ expo

/-- Model of JS parseInt with radix 10: optional sign then decimal digit
    prefix.  An input with no digit prefix yields NaN in JS; that case is
    modelled as 0 and never relied upon by any theorem below. -/
def jsParseInt (l : Line) : ℚ :=
  let l := l.dropWhile isJsSpace
  let (sgn, l) : ℚ × Line :=
    match l with
    | '-' :: rest => (-1, rest)
    | '+' :: rest => (1, rest)
    | _ => (1, l)
  sgn * (digitsToNat (l.takeWhile Char.isDigit) 0 : ℚ)

/-- Decimal rendering of a JS number whose value has a finite decimal
    expansion (every IEEE double does).  Integers render without a point,
    as JS Number.prototype.toString does; the fraction branch emits the
    shortest exact decimal.  Rationals without a finite expansion cannot
    arise from IEEE doubles and get a fraction marker. -/
def jsNumToString (q : ℚ) : String :=
  let a := |q|
  let sgn := if q < 0 then "-" else ""
  if a.den = 1 then sgn ++ Nat.repr a.num.toNat
  else
    match (List.range 40).find? (fun k => (a * (10 : ℚ) ^ (k + 1)).den = 1) with
    | some k =>
      let scaled := (a * (10 : ℚ) ^ (k + 1)).num.toNat
      let whole := scaled / 10 ^ (k + 1)
      let frac := scaled % 10 ^ (k + 1)
      let fracStr := Nat.repr frac
      let pad := String.mk (List.replicate (k + 1 - fracStr.length) '0')
      sgn ++ Nat.repr whole ++ "." ++ pad ++ fracStr
    | none => sgn ++ Nat.repr a.num.toNat ++ "/" ++ Nat.repr a.den

/-- Model of JS Number.prototype.toFixed with one digit, for the
    nonnegative arguments at which the injector calls it: round half away
    from zero to tenths, then print with exactly one decimal digit. -/
def toFixed1 (q : ℚ) : String :=
  let n := (⌊q * 10 + 1 / 2⌋).toNat
  Nat.repr (n / 10) ++ "." ++ Nat.repr (n % 10)

/-! ## Tag and playlist model (interfaces of the m3u8 module) -/

/-- A playlist tag: name, optional scalar value, optional attribute list
    (insertion ordered, mirroring a JS object with non-numeric keys), and
    the preserved raw line. -/
structure Tag where
  name : String
  value : Option String := none
  attributes : Option (List (String × String)) := none
  rawLine : String
deriving DecidableEq

structure EncryptionKey where
  method : String
  uri : Option String := none
  iv : Option String := none
  keyFormat : Option String := none
  keyFormatVersions : Option String := none
  attributes : List (String × String) := []
deriving DecidableEq

structure MediaInitSection where
  uri : String
  byteRange : Option String := none
  attributes : List (String × String) := []
deriving DecidableEq

structure DateRange where
  id : String
  classId : Option String := none
  startDate : String
  endDate : Option String := none
  duration : Option ℚ := none
  plannedDuration : Option ℚ := none
  attributes : List (String × String) := []
deriving DecidableEq

structure MediaSegment where
  duration : ℚ
  title : Option String := none
  uri : String
  byteRange : Option String := none
  discontinuity : Bool := false
  key : Option EncryptionKey := none
  map : Option MediaInitSection := none
  programDateTime : Option String := none
  dateRange : Option DateRange := none
  tags : List Tag := []
deriving DecidableEq

structure Variant where
  uri : String
  bandwidth : ℚ := 0
  averageBandwidth : Option ℚ := none
  codecs : Option String := none
  resolution : Option String := none
  frameRate : Option ℚ := none
  hdcpLevel : Option String := none
  audio : Option String := none
  video : Option String := none
  subtitles : Option String := none
  closedCaptions : Option String := none
  programId : Option ℚ := none
  attributes : List (String × String) := []
  tags : List Tag := []
deriving DecidableEq

inductive PlaylistKind where
  | master
  | media
deriving DecidableEq

structure M3U8Playlist where
  type : PlaylistKind
  version : Option ℚ := none
  independentSegments : Bool := false
  tags : List Tag := []
  segments : Option (List MediaSegment) := none
  variants : Option (List Variant) := none
  url : Option String := none
deriving DecidableEq

/-- Attribute lookup in the insertion-ordered attribute list. -/
def attrGet (attrs : List (String × String)) (k : String) : Option String :=
  (attrs.find? (fun p => p.1 == k)).map (fun p => p.2)

/-- Lookup that also treats the empty string as absent, modelling JS
    truthiness tests on attribute values. -/
def attrTruthy (attrs : List (String × String)) (k : String) : Option String :=
  match attrGet attrs k with
  | some v => if v = "" then none else some v
  | none => none

/-- Upsert preserving the position of an existing key, as assignment into
    a JS object does for non-numeric keys. -/
def setAttr (attrs : List (String × String)) (k v : String) : List (String × String) :=
  if attrs.any (fun p => p.1 == k) then
    attrs.map (fun p => if p.1 == k then (k, v) else p)
  else attrs ++ [(k, v)]

/-- Attributes that encodeAttributes always quotes. -/
def quotedAttributeNames : List String :=
  ["URI", "CODECS", "AUDIO", "VIDEO", "SUBTITLES", "CLOSED-CAPTIONS", "NAME",
   "GROUP-ID", "LANGUAGE", "STABLE-VARIANT-ID", "ID", "CLASS", "START-DATE", "END-DATE"]

/-- needsQuotes of the m3u8 module. -/
def needsQuotes (k v : String) : Bool :=
  k ∈ quotedAttributeNames ||
    v.data.any (fun c => c == ',' || isJsSpace c || c == '"' || c == ':')

/-- encodeAttributes of the m3u8 module. -/
def encodeAttributes (attrs : List (String × String)) : String :=
  String.intercalate "," (attrs.map (fun kv =>
    if needsQuotes kv.1 kv.2 then kv.1 ++ "=\"" ++ kv.2 ++ "\"" else kv.1 ++ "=" ++ kv.2))

/-- createTag of the m3u8 module. -/
def createTag (name : String) (value : Option String := none)
    (attributes : Option (List (String × String)) := none) : Tag :=
  let rawLine :=
    match attributes with
    | some a => "#" ++ name ++ ":" ++ encodeAttributes a
    | none =>
      match value with
      | some v => "#" ++ name ++ ":" ++ v
      | none => "#" ++ name
  { name := name, value := value, attributes := attributes, rawLine := rawLine }

/-- updateTagAttribute of the m3u8 module: mutates the attribute map and
    regenerates the raw line from the structured fields. -/
def updateTagAttribute (tag : Tag) (k v : String) : Tag :=
  let attrs := setAttr (tag.attributes.getD []) k v
  { tag with attributes := some attrs,
             rawLine := "#" ++ tag.name ++ ":" ++ encodeAttributes attrs }

/-- Update the first tag with the given name, mirroring Array.prototype.find
    followed by in-place mutation. -/
def updateFirstTag (name : String) (f : Tag → Tag) : List Tag → List Tag
  | [] => []
  | t :: rest => if t.name = name then f t :: rest else t :: updateFirstTag name f rest

/-- The in-place mutation updateOrAddTag applies to a found tag: new
    value and a raw line regenerated from name and value. -/
def setValueTag (name : String) (value : Option String) (t : Tag) : Tag :=
  { t with value := value,
           rawLine := match value with
             | some v => "#" ++ name ++ ":" ++ v
             | none => "#" ++ name }

/-- updateOrAddTag of the m3u8 module: update the first tag with this name
    in place (value and regenerated raw line), else append a fresh tag. -/
def updateOrAddTag (manifest : M3U8Playlist) (name : String) (value : Option String := none) :
    M3U8Playlist :=
  if manifest.tags.any (fun t => t.name == name) then
    { manifest with tags := updateFirstTag name (setValueTag name value) manifest.tags }
  else
    { manifest with tags := manifest.tags ++ [createTag name value] }

/-- First tag with a given name, as findTag of the m3u8 module. -/
def findTagValue (tags : List Tag) (name : String) : Option (Option String) :=
  (tags.find? (fun t => t.name == name)).map (fun t => t.value)

/-- Sum of the durations of a segment list. -/
def totalDuration (segs : List MediaSegment) : ℚ :=
  segs.foldl (fun acc s => acc + s.duration) 0

/-- reduce of the streamer module: maximum segment duration, starting at 0. -/
def maxDuration (segs : List MediaSegment) : ℚ :=
  segs.foldl (fun mx s => max mx s.duration) 0

/-! ## Ad break injector (src/src/ads.ts) -/

inductive AdMode where
  | interval
  | ts
deriving DecidableEq

/-- The AdConfig interface: duration in seconds, plus the optional fields
    of the respective mode. -/
structure AdConfig where
  mode : AdMode
  duration : ℚ
  interval : Option ℚ := none
  timestamps : Option (List ℚ) := none
deriving DecidableEq

/-- The interval-mode scan of getAdBreakStarts, with explicit fuel:
    starting at t = interval, while t is below windowEnd push t whenever
    the break overlaps the window, then advance by interval.  Exhausted
    fuel models the non-terminating run of the JS while loop. -/
def intervalStarts (windowStart windowEnd dur iv : ℚ) : ℕ → ℚ → Option (List ℚ)
  | 0, t => if t < windowEnd then none else some []
  | fuel + 1, t =>
    if t < windowEnd then
      match intervalStarts windowStart windowEnd dur iv fuel (t + iv) with
      | some rest => some (if t + dur > windowStart then t :: rest else rest)
      | none => none
    else some []

/-- Fuel that provably suffices for the interval scan when the interval is
    positive; for a non-positive interval the JS loop never terminates
    unless it performs zero iterations, which zero fuel reproduces. -/
def intervalFuel (windowEnd iv : ℚ) : ℕ :=
  if 0 < iv then (⌈windowEnd / iv⌉).toNat + 1 else 0

/-- getAdBreakStarts of src/src/ads.ts.  A missing interval gives the JS
    comparison undefined < windowEnd, which is false, so the loop body
    never runs and the result is empty. -/
def getAdBreakStarts (config : AdConfig) (windowStart windowEnd : ℚ) : Option (List ℚ) :=
  match config.mode with
  | .ts =>
    some ((config.timestamps.getD []).filter (fun t =>
      decide (t < windowEnd) && decide (t + config.duration > windowStart)))
  | .interval =>
    match config.interval with
    | none => some []
    | some iv => intervalStarts windowStart windowEnd config.duration iv (intervalFuel windowEnd iv) iv

/-- The per-segment walk of injectAdBreaks: track the running start time
    and whether the previous segment sat inside a break. -/
def adWalk (starts : List ℚ) (dur : ℚ) : List MediaSegment → ℚ → Bool → List MediaSegment
  | [], _, _ => []
  | seg :: rest, currentTime, prevInAd =>
    match starts.find? (fun a =>
        decide (currentTime ≥ a - 1 / 1000) && decide (currentTime < a + dur)) with
    | some adStart =>
      let elapsed := currentTime - adStart
      let cue :=
        if elapsed < 1 / 1000 then createTag ("EXT-X-CUE-OUT") (some (jsNumToString dur))
        else createTag ("EXT-X-CUE-OUT-CONT") (some (toFixed1 elapsed ++ "/" ++ jsNumToString dur))
      let seg2 := { seg with tags := cue :: seg.tags }
      seg2 :: adWalk starts dur rest (currentTime + seg.duration) true
    | none =>
      let seg2 :=
        if prevInAd then { seg with tags := createTag ("EXT-X-CUE-IN") :: seg.tags } else seg
      seg2 :: adWalk starts dur rest (currentTime + seg.duration) false

/-- injectAdBreaks of src/src/ads.ts.  The TS function mutates the segment
    array in place; the model returns the array contents after the call.
    A none result models the case where the interval scan never returns
    (non-positive interval with a window ahead of it), in which case the JS
    function never reaches the mutation loop. -/
def injectAdBreaks (segments : List MediaSegment) (config : AdConfig) (startOffset : ℚ) :
    Option (List MediaSegment) :=
  if segments.isEmpty then some segments
  else
    let windowDuration := totalDuration segments
    match getAdBreakStarts config startOffset (startOffset + windowDuration) with
    | none => none
    | some adBreakStarts =>
      if adBreakStarts.isEmpty then some segments
      else some (adWalk adBreakStarts config.duration segments startOffset false)

/-! ## Live windower (shuffleVariant / generateVariant of src/src/streamer.ts) -/

/-- Loop state of the sliding-window while loop of shuffleVariant. -/
structure ShuffleState where
  window : List MediaSegment
  elapsed : ℚ
  mediaSequence : ℕ
  discontinuitySequence : ℕ
  nextTailIndex : ℕ
deriving DecidableEq

/-- Result of running the while loop: a normal exit, the TypeError raised
    by reading the duration of an undefined head segment, or a run that
    never exits (fuel exhaustion). -/
inductive ShuffleOutcome where
  | ok (st : ShuffleState)
  | crash
  | diverge
deriving DecidableEq

/-- Fallback segment for the unreachable lookup with an empty source list
    (the loop crashes before ever using it). -/
def junkSegment : MediaSegment :=
  { duration := 0, uri := "", tags := [] }

/-- The segment one iteration pushes: a clone of the cyclically next
    source segment, marked with a discontinuity at the loop boundary. -/
def shuffleNextSeg (vod : List MediaSegment) (nt : ℕ) : MediaSegment :=
  let nextIdx := nt % vod.length
  let seg := (vod.get? nextIdx).getD junkSegment
  if nextIdx = 0 then
    { seg with discontinuity := true,
               tags := createTag ("EXT-X-DISCONTINUITY") :: seg.tags }
  else seg

/-- One iteration of the sliding-window loop: push the next clone, shift
    the head, account the head duration and bump the counters. -/
def shuffleStep (vod : List MediaSegment) (st : ShuffleState) : ShuffleState :=
  let pushed := st.window ++ [shuffleNextSeg vod st.nextTailIndex]
  let removed := pushed.headD junkSegment
  { window := pushed.drop 1
    elapsed := st.elapsed - removed.duration
    mediaSequence := st.mediaSequence + 1
    discontinuitySequence :=
      st.discontinuitySequence + (if removed.discontinuity then 1 else 0)
    nextTailIndex := st.nextTailIndex + 1 }

/-- The while loop of shuffleVariant.  Reading the head of an empty window
    reproduces the TypeError of segments[0].duration in JS; exhausted fuel
    under a true loop condition models a run that has not exited. -/
def shuffleLoop (vod : List MediaSegment) : ℕ → ShuffleState → ShuffleOutcome
  | 0, st =>
    match st.window with
    | [] => .crash
    | head :: _ => if st.elapsed > head.duration then .diverge else .ok st
  | fuel + 1, st =>
    match st.window with
    | [] => .crash
    | head :: _ =>
      if st.elapsed > head.duration then shuffleLoop vod fuel (shuffleStep vod st)
      else .ok st

/-- Initial loop state of shuffleVariant: the window is the clamped prefix
    of the source, elapsed is the wall-clock delta in seconds. -/
def shuffleInit (vod : List MediaSegment) (start now : ℚ) (windowSize : ℕ) : ShuffleState :=
  let actualWindowSize := min windowSize vod.length
  { window := vod.take actualWindowSize
    elapsed := (now - start) / 1000
    mediaSequence := 0
    discontinuitySequence := 0
    nextTailIndex := actualWindowSize }

/-- Minimum duration over a segment list (1 for the empty list, which
    only ever meets the crash path). -/
def minDuration : List MediaSegment → ℚ
  | [] => 1
  | s :: rest => rest.foldl (fun acc t => min acc t.duration) s.duration

/-- Fuel that provably suffices whenever every source duration is
    positive; when some duration is non-positive no fuel bound exists
    (the JS loop can run forever), and a diverge outcome under this
    canonical fuel is backed below by a fuel-independent divergence
    lemma wherever a theorem relies on it. -/
def shuffleFuel (vod : List MediaSegment) (elapsed : ℚ) : ℕ :=
  match vod with
  | [] => 0
  | _ :: _ => if 0 < minDuration vod then (⌈elapsed / minDuration vod⌉).toNat + 1 else 0

/-- The sliding-window loop of shuffleVariant run on a source list with
    the canonical fuel. -/
def shuffleVariantRun (vod : List MediaSegment) (start now : ℚ) (windowSize : ℕ) :
    ShuffleOutcome :=
  shuffleLoop vod (shuffleFuel vod ((now - start) / 1000)) (shuffleInit vod start now windowSize)

/-- generateVariant of src/src/streamer.ts, on the playlist value: set the
    live tags and strip the VOD-only tags; an empty or missing segment
    list is encoded as is. -/
def generateVariantP (manifest : M3U8Playlist) (mediaSequence discontinuitySequence : ℕ) :
    M3U8Playlist :=
  if (manifest.segments.getD []).isEmpty then manifest
  else
    let targetDuration := maxDuration (manifest.segments.getD [])
    let m1 := updateOrAddTag manifest ("EXT-X-TARGETDURATION") (some (Int.repr ⌈targetDuration⌉))
    let m2 := updateOrAddTag m1 ("EXT-X-MEDIA-SEQUENCE") (some (Nat.repr mediaSequence))
    let m3 := updateOrAddTag m2 ("EXT-X-DISCONTINUITY-SEQUENCE") (some (Nat.repr discontinuitySequence))
    let m4 := updateOrAddTag m3 ("EXT-X-START") (some ("TIME-OFFSET=0.0"))
    { m4 with tags := m4.tags.filter (fun t =>
        !(t.name == "EXT-X-PLAYLIST-TYPE" || t.name == "EXT-X-ENDLIST")) }

/-- shuffleVariant of src/src/streamer.ts on the playlist value, with
    explicit fuel for the sliding loop: none models a crashed or
    non-terminating request. -/
def shuffleVariantP (manifest : M3U8Playlist) (start now : ℚ) (windowSize fuel : ℕ) :
    Option M3U8Playlist :=
  let vod := manifest.segments.getD []
  match shuffleLoop vod fuel (shuffleInit vod start now windowSize) with
  | .ok st =>
    some (generateVariantP { manifest with segments := some st.window }
      st.mediaSequence st.discontinuitySequence)
  | _ => none

/-! ## VOD fitter (fitVariant / generateVODVariant of src/src/streamer.ts) -/

/-- generateVODVariant of src/src/streamer.ts on the playlist value: the
    VOD finalization tags, mutating the playlist it is handed. -/
def generateVODVariantP (manifest : M3U8Playlist) : M3U8Playlist :=
  let targetDuration := maxDuration (manifest.segments.getD [])
  let m1 := updateOrAddTag manifest ("EXT-X-TARGETDURATION") (some (Int.repr ⌈targetDuration⌉))
  let m2 := updateOrAddTag m1 ("EXT-X-PLAYLIST-TYPE") (some ("VOD"))
  updateOrAddTag m2 ("EXT-X-ENDLIST")

/-- The segment the fit loop appends at index i: the cyclically next
    source clone, marked with a discontinuity when looping back to the
    start. -/
def fitNextSeg (vod : List MediaSegment) (i : ℕ) : MediaSegment :=
  let seg := (vod.get? (i % vod.length)).getD junkSegment
  if vod.length ≤ i ∧ i % vod.length = 0 then
    { seg with discontinuity := true,
               tags := createTag ("EXT-X-DISCONTINUITY") :: seg.tags }
  else seg

/-- The accumulation loop of fitVariant, with explicit fuel: keep cloning
    source segments cyclically until the accumulated duration reaches the
    target. -/
def fitLoop (vod : List MediaSegment) (duration : ℚ) :
    ℕ → ℚ → List MediaSegment → ℕ → Option (List MediaSegment × ℚ)
  | 0, acc, built, _ => if acc < duration then none else some (built, acc)
  | fuel + 1, acc, built, i =>
    if acc < duration then
      fitLoop vod duration fuel (acc + (fitNextSeg vod i).duration)
        (built ++ [fitNextSeg vod i]) (i + 1)
    else some (built, acc)

/-- fitVariant of src/src/streamer.ts on the playlist value: with no
    segments or no (or zero, hence falsy) duration the playlist passes
    through unchanged apart from VOD finalization; otherwise the segment
    list is rebuilt by the accumulation loop. -/
def fitVariantP (manifest : M3U8Playlist) (duration : Option ℚ) (fuel : ℕ) :
    Option M3U8Playlist :=
  if (manifest.segments.getD []).isEmpty ∨ duration.getD 0 = 0 then
    some (generateVODVariantP manifest)
  else
    match fitLoop (manifest.segments.getD []) (duration.getD 0) fuel 0 [] 0 with
    | some (built, _) => some (generateVODVariantP { manifest with segments := some built })
    | none => none

/-- The variant branch of makeVOD, acting on the cache entry it aliases:
    fetchManifest returns the cached playlist object itself, fitVariant
    clones it only on the loop path, and generateVODVariant mutates the
    playlist it is handed in place.  The first component is the response
    body playlist (none for a non-terminating fit loop), the second is the
    object the cache holds after the request. -/
def makeVODVariantFromCache (cached : M3U8Playlist) (duration : Option ℚ) (fuel : ℕ) :
    Option M3U8Playlist × M3U8Playlist :=
  if (cached.segments.getD []).isEmpty ∨ duration.getD 0 = 0 then
    let mutated := generateVODVariantP cached
    (some mutated, mutated)
  else
    match fitLoop (cached.segments.getD []) (duration.getD 0) fuel 0 [] 0 with
    | some (built, _) =>
      (some (generateVODVariantP { cached with segments := some built }), cached)
    | none => (none, cached)

/-! ## Master rewriter (generateMaster / buildVariantQuery of src/src/streamer.ts) -/

/-- Characters that URLSearchParams serialization leaves unescaped. -/
def urlUnreserved (c : Char) : Bool :=
  c.isAlphanum || c == '*' || c == '-' || c == '.' || c == '_'

def hexDigit (n : ℕ) : Char :=
  if n < 10 then Char.ofNat ('0'.toNat + n) else Char.ofNat ('A'.toNat + (n - 10))

/-- Percent-encoding of one character as URLSearchParams does (space to
    plus; ASCII scope, which covers every value this service builds). -/
def urlEncodeChar (c : Char) : List Char :=
  if urlUnreserved c then [c]
  else if c = ' ' then ['+']
  else ['%', hexDigit (c.toNat / 16 % 16), hexDigit (c.toNat % 16)]

def urlEncodeStr (s : String) : String :=
  String.mk (s.data.flatMap urlEncodeChar)

/-- URLSearchParams.toString on an append-ordered parameter list. -/
def urlEncodeParams (params : List (String × String)) : String :=
  String.intercalate "&" (params.map (fun kv => urlEncodeStr kv.1 ++ "=" ++ urlEncodeStr kv.2))

/-- The parameter list built by buildVariantQuery: variant always, then
    stream, start and duration only when truthy. -/
def buildVariantQueryParams (index : ℕ) (stream : Option String) (start : ℚ)
    (duration : Option ℚ) : List (String × String) :=
  [("variant", Nat.repr index)] ++
  (match stream with
   | some s => if s = "" then [] else [("stream", s)]
   | none => []) ++
  (if start = 0 then [] else [("start", jsNumToString start)]) ++
  (match duration with
   | some d => if d = 0 then [] else [("duration", jsNumToString d)]
   | none => [])

/-- buildVariantQuery of src/src/streamer.ts. -/
def buildVariantQuery (index : ℕ) (stream : Option String) (start : ℚ)
    (duration : Option ℚ) : String :=
  urlEncodeParams (buildVariantQueryParams index stream start duration)

/-- The rewritten self-referential URI for one variant index. -/
def variantURI (mode : String) (index : ℕ) (stream : Option String) (start : ℚ)
    (duration : Option ℚ) : String :=
  "/" ++ mode ++ ".m3u8?" ++ buildVariantQuery index stream start duration

/-- The EXT-X-STREAM-INF rewrite walk of generateMaster. -/
def rewriteVariants (mode : String) (stream : Option String) (start : ℚ)
    (duration : Option ℚ) : List Variant → ℕ → List Variant
  | [], _ => []
  | v :: rest, i =>
    { v with uri := variantURI mode i stream start duration } ::
      rewriteVariants mode stream start duration rest (i + 1)

/-- The EXT-X-MEDIA rewrite walk of generateMaster: only tags whose URI
    attribute is present and truthy are rewritten and consume an index. -/
def rewriteMediaTags (mode : String) (stream : Option String) (start : ℚ)
    (duration : Option ℚ) : List Tag → ℕ → List Tag
  | [], _ => []
  | t :: rest, i =>
    if t.name = "EXT-X-MEDIA" ∧ (attrTruthy (t.attributes.getD []) ("URI")).isSome then
      updateTagAttribute t ("URI") (variantURI mode i stream start duration) ::
        rewriteMediaTags mode stream start duration rest (i + 1)
    else t :: rewriteMediaTags mode stream start duration rest i

/-- generateMaster of src/src/streamer.ts on the playlist value: rewrite
    the variant URIs (indices from 0) and then the EXT-X-MEDIA URIs
    (indices continuing after the variants). -/
def generateMasterP (mode : String) (stream : Option String) (manifest : M3U8Playlist)
    (start : ℚ) (duration : Option ℚ) : M3U8Playlist :=
  let variantCount := (manifest.variants.getD []).length
  let variants2 :=
    match manifest.variants with
    | some vs => some (rewriteVariants mode stream start duration vs 0)
    | none => none
  { manifest with
      variants := variants2
      tags := rewriteMediaTags mode stream start duration manifest.tags variantCount }

/-- The master branch of the vod.m3u8 route: main.ts reads only stream,
    variant and duration from the query, so the ad parameter of the
    request never reaches makeVOD, and generateMaster is called with
    start 0.  The ad argument is carried here only to model the request
    surface. -/
def vodMasterResponse (cachedMaster : M3U8Playlist) (stream : Option String)
    (duration : Option ℚ) (_ad : Option String) : M3U8Playlist :=
  generateMasterP ("vod") stream cachedMaster 0 duration

/-! ## M3U8 parser and encoder (the m3u8 module) -/

/-- Whether the pattern is a leading segment of the text. -/
def leadsWith : Line → Line → Bool
  | [], _ => true
  | _ :: _, [] => false
  | p :: ps, c :: cs => p == c && leadsWith ps cs

/-- Whether the pattern occurs anywhere in the text. -/
def hasSub (pat : Line) (text : Line) : Bool :=
  leadsWith pat text ||
    match text with
    | [] => false
    | _ :: rest => hasSub pat rest

/-- Index of the first occurrence of a character. -/
def indexOfChar (c : Char) : Line → Option ℕ
  | [] => none
  | x :: rest =>
    if x = c then some 0
    else match indexOfChar c rest with
      | some i => some (i + 1)
      | none => none

/-- A character matched by the attribute-detection regex class
    (ASCII letters, digits, hyphen). -/
def attrNameChar (c : Char) : Bool := c.isAlpha || c.isDigit || c == '-'

/-- hasAttributes of the m3u8 module: the tag tail contains an attribute
    name character immediately followed by an equals sign. -/
def hasAttributes : Line → Bool
  | c1 :: c2 :: rest => (attrNameChar c1 && c2 == '=') || hasAttributes (c2 :: rest)
  | _ => false

/-- Scanner state of parseAttributes: searching for a key, reading a
    value, or skipping separators after a closed value. -/
inductive AttrMode where
  | keySearch (acc : Line)
  | valueRead (key : String) (acc : Line) (inQuotes : Bool)
  | skipQuote
  | skipComma

/-- The character machine of parseAttributes.  Key search accumulates up
    to an equals sign and trims (an empty trimmed key keeps searching, as
    the JS loop does when the key is falsy); value reading honours double
    quotes; a closing quote additionally skips commas and spaces, a bare
    comma skips spaces. -/
def parseAttrsGo : Line → AttrMode → List (String × String) → List (String × String)
  | [], mode, attrs =>
    (match mode with
     | .valueRead key acc _ => if key ≠ "" ∧ acc ≠ [] then setAttr attrs key (String.mk acc) else attrs
     | _ => attrs)
  | c :: rest, .keySearch acc, attrs =>
    if c = '=' then
      (let key := jsTrim acc
       if key = [] then parseAttrsGo rest (.keySearch []) attrs
       else parseAttrsGo rest (.valueRead (String.mk key) [] false) attrs)
    else parseAttrsGo rest (.keySearch (acc ++ [c])) attrs
  | c :: rest, .valueRead key acc inQ, attrs =>
    if c = '"' ∧ ¬inQ then parseAttrsGo rest (.valueRead key acc true) attrs
    else if c = '"' ∧ inQ then parseAttrsGo rest .skipQuote (setAttr attrs key (String.mk acc))
    else if c = ',' ∧ ¬inQ then parseAttrsGo rest .skipComma (setAttr attrs key (String.mk acc))
    else parseAttrsGo rest (.valueRead key (acc ++ [c]) inQ) attrs
  | c :: rest, .skipQuote, attrs =>
    if c = ',' ∨ c = ' ' then parseAttrsGo rest .skipQuote attrs
    else if c = '=' then parseAttrsGo rest (.keySearch []) attrs
    else parseAttrsGo rest (.keySearch [c]) attrs
  | c :: rest, .skipComma, attrs =>
    if c = ' ' then parseAttrsGo rest .skipComma attrs
    else if c = '=' then parseAttrsGo rest (.keySearch []) attrs
    else parseAttrsGo rest (.keySearch [c]) attrs

/-- parseAttributes of the m3u8 module. -/
def parseAttributes (l : Line) : List (String × String) :=
  parseAttrsGo l (.keySearch []) []

/-- parseTag of the m3u8 module, on one trimmed tag line. -/
def parseTagOfLine (l : Line) : Tag :=
  match indexOfChar ':' l with
  | none => { name := String.mk (l.drop 1), rawLine := String.mk l }
  | some ci =>
    let name := String.mk ((l.take ci).drop 1)
    let valueStr := l.drop (ci + 1)
    if hasAttributes valueStr then
      { name := name, attributes := some (parseAttributes valueStr), rawLine := String.mk l }
    else { name := name, value := some (String.mk valueStr), rawLine := String.mk l }

def isSegmentLevelTag (n : String) : Bool :=
  n ∈ ["EXT-X-KEY", "EXT-X-MAP", "EXT-X-PROGRAM-DATE-TIME", "EXT-X-DATERANGE"]

def isVariantLevelTag (n : String) : Bool :=
  n ∈ ["EXT-X-I-FRAME-STREAM-INF"]

/-- Tag names the parser buffers for the next segment when no segment
    context is open: the four segment-level tags plus byte-range and
    discontinuity, which have the same buffering behaviour inline. -/
def bufferableTagName (n : String) : Bool :=
  n ∈ ["EXT-X-BYTERANGE", "EXT-X-DISCONTINUITY", "EXT-X-KEY", "EXT-X-MAP",
       "EXT-X-PROGRAM-DATE-TIME", "EXT-X-DATERANGE"]

/-- A truthy-or-default read of a tag value, as in value or fallback. -/
def valueTruthyOr (v : Option String) (d : String) : String :=
  match v with
  | some s => if s = "" then d else s
  | none => d

def mkKeyFromAttrs (attrs : List (String × String)) : EncryptionKey :=
  { method := valueTruthyOr (attrGet attrs ("METHOD")) ("NONE")
    uri := attrGet attrs ("URI")
    iv := attrGet attrs ("IV")
    keyFormat := attrGet attrs ("KEYFORMAT")
    keyFormatVersions := attrGet attrs ("KEYFORMATVERSIONS")
    attributes := attrs }

def mkMapFromAttrs (attrs : List (String × String)) : MediaInitSection :=
  { uri := valueTruthyOr (attrGet attrs ("URI")) ("")
    byteRange := attrGet attrs ("BYTERANGE")
    attributes := attrs }

def mkDateRangeFromAttrs (attrs : List (String × String)) : DateRange :=
  { id := valueTruthyOr (attrGet attrs ("ID")) ("")
    classId := attrGet attrs ("CLASS")
    startDate := valueTruthyOr (attrGet attrs ("START-DATE")) ("")
    endDate := attrGet attrs ("END-DATE")
    duration := (attrTruthy attrs ("DURATION")).map (fun s => jsParseFloat s.data)
    plannedDuration := (attrTruthy attrs ("PLANNED-DURATION")).map (fun s => jsParseFloat s.data)
    attributes := attrs }

def mkVariantFromTag (attrs : List (String × String)) (tags : List Tag) : Variant :=
  { uri := ""
    bandwidth := jsParseInt (valueTruthyOr (attrGet attrs ("BANDWIDTH")) ("0")).data
    averageBandwidth := (attrTruthy attrs ("AVERAGE-BANDWIDTH")).map (fun s => jsParseInt s.data)
    codecs := attrGet attrs ("CODECS")
    resolution := attrGet attrs ("RESOLUTION")
    frameRate := (attrTruthy attrs ("FRAME-RATE")).map (fun s => jsParseFloat s.data)
    hdcpLevel := attrGet attrs ("HDCP-LEVEL")
    audio := attrGet attrs ("AUDIO")
    video := attrGet attrs ("VIDEO")
    subtitles := attrGet attrs ("SUBTITLES")
    closedCaptions := attrGet attrs ("CLOSED-CAPTIONS")
    programId := (attrTruthy attrs ("PROGRAM-ID")).map (fun s => jsParseInt s.data)
    attributes := attrs
    tags := tags }

/-- Duration field of EXTINF: text before the first comma, with the falsy
    fallback to the literal 0. -/
def extinfDuration (v : Option String) : ℚ :=
  match v with
  | none => jsParseFloat ("0").data
  | some s =>
    let first := (splitOnChar ',' s.data).headD []
    jsParseFloat (if first = [] then ("0").data else first)

/-- Title field of EXTINF: text after the first comma, empty meaning
    absent. -/
def extinfTitle (v : Option String) : Option String :=
  match v with
  | none => none
  | some s =>
    let rest := joinComma ((splitOnChar ',' s.data).drop 1)
    if rest = [] then none else some (String.mk rest)

/-- The segment opened by an EXTINF tag: buffered tags then the EXTINF
    itself, with an empty URI placeholder. -/
def mkSegmentFromExtinf (buffer : List Tag) (tag : Tag) : MediaSegment :=
  { duration := extinfDuration tag.value
    title := extinfTitle tag.value
    uri := ""
    tags := buffer ++ [tag] }

/-- Processing of one tag while a segment context is open: the dedicated
    updates for the recognized per-segment tags, and a plain tag append
    for everything else. -/
def segApplyTag (s : MediaSegment) (tag : Tag) : MediaSegment :=
  if tag.name = "EXT-X-BYTERANGE" then
    { s with byteRange := tag.value, tags := s.tags ++ [tag] }
  else if tag.name = "EXT-X-DISCONTINUITY" then
    { s with discontinuity := true, tags := s.tags ++ [tag] }
  else if tag.name = "EXT-X-KEY" then
    { s with key := some (mkKeyFromAttrs (tag.attributes.getD [])), tags := s.tags ++ [tag] }
  else if tag.name = "EXT-X-MAP" then
    { s with map := some (mkMapFromAttrs (tag.attributes.getD [])), tags := s.tags ++ [tag] }
  else if tag.name = "EXT-X-PROGRAM-DATE-TIME" then
    { s with programDateTime := tag.value, tags := s.tags ++ [tag] }
  else if tag.name = "EXT-X-DATERANGE" then
    { s with dateRange := some (mkDateRangeFromAttrs (tag.attributes.getD [])), tags := s.tags ++ [tag] }
  else { s with tags := s.tags ++ [tag] }

/-- Parser state: the playlist built so far, the open segment and variant
    contexts, and the two pending-tag buffers. -/
structure ParseState where
  playlist : M3U8Playlist
  currentSegment : Option MediaSegment := none
  currentVariant : Option Variant := none
  segmentTags : List Tag := []
  variantTags : List Tag := []
deriving DecidableEq

def initialParseState : ParseState :=
  { playlist := { type := .media, tags := [] } }

/-- The tag dispatch of the parser loop, one branch per TS else-if. -/
def procTag (st : ParseState) (tag : Tag) : ParseState :=
  if tag.name = "EXT-X-VERSION" then
    { st with playlist := { st.playlist with
        version := some (jsParseInt (valueTruthyOr tag.value ("1")).data)
        tags := st.playlist.tags ++ [tag] } }
  else if tag.name = "EXT-X-INDEPENDENT-SEGMENTS" then
    { st with playlist := { st.playlist with
        independentSegments := true
        tags := st.playlist.tags ++ [tag] } }
  else if tag.name = "EXT-X-STREAM-INF" then
    { st with playlist := { st.playlist with type := .master }
              currentVariant := some (mkVariantFromTag (tag.attributes.getD []) (st.variantTags ++ [tag]))
              variantTags := [] }
  else if tag.name = "EXTINF" then
    { st with currentSegment := some (mkSegmentFromExtinf st.segmentTags tag)
              segmentTags := [] }
  else if bufferableTagName tag.name then
    match st.currentSegment with
    | some s => { st with currentSegment := some (segApplyTag s tag) }
    | none => { st with segmentTags := st.segmentTags ++ [tag] }
  else if tag.name = "EXT-X-MEDIA" then
    { st with playlist := { st.playlist with
        type := .master
        tags := st.playlist.tags ++ [tag] } }
  else
    match st.currentVariant, st.currentSegment with
    | some _, _ => { st with variantTags := st.variantTags ++ [tag] }
    | none, some s => { st with currentSegment := some (segApplyTag s tag) }
    | none, none =>
      if isSegmentLevelTag tag.name then { st with segmentTags := st.segmentTags ++ [tag] }
      else if isVariantLevelTag tag.name then { st with variantTags := st.variantTags ++ [tag] }
      else { st with playlist := { st.playlist with tags := st.playlist.tags ++ [tag] } }

/-- One iteration of the parser loop: trim, then either a tag line or a
    URI line closing the open segment or variant context. -/
def parseLine (st : ParseState) (raw : Line) : ParseState :=
  let line := jsTrim raw
  if line.head? = some '#' then procTag st (parseTagOfLine line)
  else
    match st.currentSegment with
    | some seg =>
      { st with playlist := { st.playlist with
          segments := some ((st.playlist.segments.getD []) ++ [{ seg with uri := String.mk line }]) }
                currentSegment := none
                segmentTags := [] }
    | none =>
      match st.currentVariant with
      | some v =>
        { st with playlist := { st.playlist with
            variants := some ((st.playlist.variants.getD []) ++ [{ v with uri := String.mk line }]) }
                  currentVariant := none
                  variantTags := [] }
      | none => st

/-- parseM3U8 of the m3u8 module: split on optional-CR LF, drop blank
    lines, demand the EXTM3U header on the raw first line, then fold the
    parser loop over the remaining lines.  none models the thrown
    ParseError. -/
def parseM3U8 (content : String) : Option M3U8Playlist :=
  let lines := (splitLinesJS content.data).filter (fun l => !(jsTrim l).isEmpty)
  match lines with
  | [] => none
  | l0 :: rest =>
    if leadsWith ("#EXTM3U").data l0 then
      some ((rest.foldl parseLine initialParseState).playlist)
    else none

/-- encodeM3U8 of the m3u8 module: the header, the playlist tag raw
    lines, then either the variant blocks (master with a variants array)
    or the segment blocks (media with a segments array), joined by LF. -/
def encodeM3U8 (p : M3U8Playlist) : String :=
  let tail : List String :=
    if p.type = .master ∧ p.variants ≠ none then
      (p.variants.getD []).flatMap (fun v => v.tags.map Tag.rawLine ++ [v.uri])
    else if p.type = .media ∧ p.segments ≠ none then
      (p.segments.getD []).flatMap (fun s => s.tags.map Tag.rawLine ++ [s.uri])
    else []
  String.mk (joinLinesJS ((("#EXTM3U" :: p.tags.map Tag.rawLine) ++ tail).map String.data))

/-! ## Derived definitions used by the statements below -/

/-- shuffleVariant with canonical fuel, as the request handler runs it. -/
def shuffleVariantPCanon (manifest : M3U8Playlist) (start now : ℚ) (windowSize : ℕ) :
    Option M3U8Playlist :=
  shuffleVariantP manifest start now windowSize
    (shuffleFuel (manifest.segments.getD []) ((now - start) / 1000))

/-- The playlist shuffleVariant hands to generateVariant after the loop. -/
def liveWindowOutput (manifest : M3U8Playlist) (r : ShuffleState) : M3U8Playlist :=
  generateVariantP { manifest with segments := some r.window }
    r.mediaSequence r.discontinuitySequence

/-- Conclusion of the live-window invariant claim: the canonical run
    emits a playlist of exactly min(W, L) segments, the initial window
    has that length, and one loop iteration preserves it. -/
def windowInvariantSpec (manifest : M3U8Playlist) (start now : ℚ) (W : ℕ) : Prop :=
  (∃ p, shuffleVariantPCanon manifest start now W = some p ∧
    (p.segments.getD []).length = min W (manifest.segments.getD []).length) ∧
  (shuffleInit (manifest.segments.getD []) start now W).window.length
    = min W (manifest.segments.getD []).length ∧
  (∀ st : ShuffleState,
    st.window.length = min W (manifest.segments.getD []).length →
    (shuffleStep (manifest.segments.getD []) st).window.length
      = min W (manifest.segments.getD []).length)

/-- Conclusion of the monotonicity claim: the counters of the two runs
    compare, and each output playlist emits exactly those counters in its
    EXT-X-MEDIA-SEQUENCE and EXT-X-DISCONTINUITY-SEQUENCE tags. -/
def monotoneEmitted (manifest : M3U8Playlist) (r1 r2 : ShuffleState) : Prop :=
  r1.mediaSequence ≤ r2.mediaSequence ∧
  r1.discontinuitySequence ≤ r2.discontinuitySequence ∧
  findTagValue (liveWindowOutput manifest r1).tags ("EXT-X-MEDIA-SEQUENCE")
    = some (some (Nat.repr r1.mediaSequence)) ∧
  findTagValue (liveWindowOutput manifest r1).tags ("EXT-X-DISCONTINUITY-SEQUENCE")
    = some (some (Nat.repr r1.discontinuitySequence)) ∧
  findTagValue (liveWindowOutput manifest r2).tags ("EXT-X-MEDIA-SEQUENCE")
    = some (some (Nat.repr r2.mediaSequence)) ∧
  findTagValue (liveWindowOutput manifest r2).tags ("EXT-X-DISCONTINUITY-SEQUENCE")
    = some (some (Nat.repr r2.discontinuitySequence))

/-- Conclusion of the VOD-fit bound claim: some fuel completes the fit,
    and every completed fit lands in the half-open duration window. -/
def fitBoundsSpec (manifest : M3U8Playlist) (duration : ℚ) : Prop :=
  (∃ fuel out, fitVariantP manifest (some duration) fuel = some out) ∧
  ∀ fuel out, fitVariantP manifest (some duration) fuel = some out →
    duration ≤ totalDuration (out.segments.getD []) ∧
    totalDuration (out.segments.getD []) < duration + maxDuration (manifest.segments.getD [])

/-- Conclusion of the termination claim: the canonical run exits the
    loop normally, one iteration subtracts exactly the removed head
    duration from elapsed, and a positive head strictly decreases it. -/
def shuffleTotalSpec (vod : List MediaSegment) (start now : ℚ) (W : ℕ) : Prop :=
  (∃ r, shuffleVariantRun vod start now W = .ok r) ∧
  (∀ (st : ShuffleState) (h : MediaSegment) (t : List MediaSegment),
    st.window = h :: t → (shuffleStep vod st).elapsed = st.elapsed - h.duration) ∧
  (∀ (st : ShuffleState) (h : MediaSegment) (t : List MediaSegment),
    st.window = h :: t → 0 < h.duration → (shuffleStep vod st).elapsed < st.elapsed)

/-- The three cue tag names the injector may prepend. -/
def adCueNames : List String := ["EXT-X-CUE-OUT", "EXT-X-CUE-OUT-CONT", "EXT-X-CUE-IN"]

/-- Frame relation of the injector: all fields except the tag list are
    untouched, and the tag list is either untouched or gains exactly one
    cue tag at the front. -/
def adFrame (a b : MediaSegment) : Prop :=
  b = { a with tags := b.tags } ∧
  (b.tags = a.tags ∨ ∃ c, c.name ∈ adCueNames ∧ b.tags = c :: a.tags)

/-- Conclusion of the injector frame claim. -/
def injectFrameSpec (segments : List MediaSegment) (config : AdConfig) (startOffset : ℚ) : Prop :=
  (∀ out, injectAdBreaks segments config startOffset = some out →
    List.Forall₂ adFrame segments out) ∧
  (segments = [] → injectAdBreaks segments config startOffset = some segments) ∧
  (getAdBreakStarts config startOffset (startOffset + totalDuration segments) = some [] →
    injectAdBreaks segments config startOffset = some segments)

/-- Whether a tag is an EXT-X-MEDIA tag with a truthy URI attribute, the
    condition under which generateMaster rewrites and counts it. -/
def mediaTagWithURI (t : Tag) : Prop :=
  t.name = "EXT-X-MEDIA" ∧ (attrTruthy (t.attributes.getD []) ("URI")).isSome

/-- Conclusion of the master-rewrite claim, without the ad clause: every
    variant and every URI-bearing EXT-X-MEDIA tag is rewritten to a
    self-referential URI for some index, the query carries variant,
    stream (when present and nonempty), start (when nonzero) and duration
    (when present and nonzero), and no parameter is ever named ad. -/
def masterRewriteSpec (mode : String) (stream : Option String) (manifest : M3U8Playlist)
    (start : ℚ) (duration : Option ℚ) : Prop :=
  List.Forall₂ (fun v v2 => ∃ i, v2 = { v with uri := variantURI mode i stream start duration })
    (manifest.variants.getD [])
    ((generateMasterP mode stream manifest start duration).variants.getD []) ∧
  List.Forall₂ (fun t t2 =>
      (¬mediaTagWithURI t → t2 = t) ∧
      (mediaTagWithURI t →
        ∃ i, t2 = updateTagAttribute t ("URI") (variantURI mode i stream start duration)))
    manifest.tags (generateMasterP mode stream manifest start duration).tags ∧
  (∀ i, ("variant", Nat.repr i) ∈ buildVariantQueryParams i stream start duration) ∧
  (∀ i s, stream = some s → s ≠ "" →
    ("stream", s) ∈ buildVariantQueryParams i stream start duration) ∧
  (∀ i, start ≠ 0 → ("start", jsNumToString start) ∈ buildVariantQueryParams i stream start duration) ∧
  (∀ i d, duration = some d → d ≠ 0 →
    ("duration", jsNumToString d) ∈ buildVariantQueryParams i stream start duration) ∧
  (∀ i kv, kv ∈ buildVariantQueryParams i stream start duration → kv.1 ≠ ("ad")) ∧
  (∀ i, variantURI mode i stream start duration
    = "/" ++ mode ++ ".m3u8?" ++ buildVariantQuery i stream start duration)

/-! ## Concrete instances used by counterexamples and witnesses -/

/-- A plain ten-second segment. -/
def tenSeg (u : String) : MediaSegment := { duration := 10, uri := u, tags := [] }

def vodAB : List MediaSegment := [tenSeg ("a"), tenSeg ("b")]

def pAB : M3U8Playlist := { type := .media, tags := [], segments := some vodAB }

/-- A zero-duration segment: parsed from EXTINF of 0, it makes the
    sliding loop spin forever once elapsed is positive. -/
def zeroSeg : MediaSegment := { duration := 0, uri := "z", tags := [] }

def vodZero : List MediaSegment := [zeroSeg]

def pZero : M3U8Playlist := { type := .media, tags := [], segments := some vodZero }

/-- Fuel-independent divergence of the sliding loop on the zero-duration
    source with two seconds elapsed. -/
def shuffleZeroDiverges : Prop :=
  ∀ fuel, shuffleLoop vodZero fuel (shuffleInit vodZero 0 2000 1) = .diverge

/-- The empty media playlist, as parsed from a manifest with no segment. -/
def emptyMediaP : M3U8Playlist := { type := .media, tags := [] }

/-- Fuel-independent crash of the sliding loop on an empty source. -/
def shuffleEmptyCrashes : Prop :=
  ∀ fuel, shuffleLoop [] fuel (shuffleInit [] 0 0 3) = .crash

/-- Fuel-independent crash of the sliding loop with window size zero. -/
def shuffleZeroWindowCrashes : Prop :=
  ∀ fuel, shuffleLoop vodAB fuel (shuffleInit vodAB 0 0 0) = .crash

/-- The s0-clone with the loop-boundary discontinuity marking. -/
def discSegA : MediaSegment :=
  { duration := 10, uri := "a", discontinuity := true, tags := [createTag ("EXT-X-DISCONTINUITY")] }

/-- Loop exit state of the two-segment source at now = start. -/
def stExA : ShuffleState :=
  { window := vodAB, elapsed := 0, mediaSequence := 0, discontinuitySequence := 0, nextTailIndex := 2 }

/-- Loop exit state of the two-segment source fifteen seconds in. -/
def stExB : ShuffleState :=
  { window := [tenSeg ("b"), discSegA], elapsed := 5, mediaSequence := 1,
    discontinuitySequence := 0, nextTailIndex := 3 }

/-- A cached single-segment media playlist, as fetchManifest stores it. -/
def cacheP : M3U8Playlist := { type := .media, tags := [], segments := some [tenSeg ("s0")] }

/-- The segments of the interval-mode ad scenario: six ten-second
    segments. -/
def adSeg (i : ℕ) : MediaSegment :=
  { duration := 10, uri := String.mk ('s' :: (Nat.repr i).data),
    tags := [createTag ("EXTINF") (some ("10.0,"))] }

def adSegs6 : List MediaSegment := [adSeg 0, adSeg 1, adSeg 2, adSeg 3, adSeg 4, adSeg 5]

def adCfg : AdConfig := { mode := .interval, duration := 15, interval := some 30 }

def cueOutTag : Tag := createTag ("EXT-X-CUE-OUT") (some ("15"))

def cueContTag : Tag := createTag ("EXT-X-CUE-OUT-CONT") (some ("10.0/15"))

def cueInTag : Tag := createTag ("EXT-X-CUE-IN")

/-- A timestamp-mode config whose single break sits far outside the
    one-segment window used by the injector frame witness. -/
def tsCfgFar : AdConfig := { mode := .ts, duration := 5, timestamps := some [100] }

/-- A master playlist with one variant, as for the rewrite scenario. -/
def variantV0 : Variant :=
  { uri := "v0.m3u8", bandwidth := 5000000,
    tags := [createTag ("EXT-X-STREAM-INF") none (some [("BANDWIDTH", "5000000")])] }

def masterV0 : M3U8Playlist :=
  { type := .master, tags := [], variants := some [variantV0] }

/-- The rewritten variant URI of the ad-bearing VOD master request. -/
def vodAdFreeURI : String := "/vod.m3u8?variant=0&stream=test&duration=35"

/-- The degenerate master text of the round-trip counterexample: a
    variant tag that no URI line ever closes. -/
def degenerateMasterText : String := "#EXTM3U\n#EXT-X-STREAM-INF:BANDWIDTH=1\n"

/-- A small media manifest for the round-trip witness. -/
def mediaTextW : String := "#EXTM3U\n#EXT-X-VERSION:3\n#EXTINF:9.5,Segment 1\nsegment-0.ts"

/-- The playlist parsed from the degenerate master text: the STREAM-INF
    line opens a variant context that no URI line ever closes, so the
    playlist keeps the master kind but records no variants. -/
def pDeg : M3U8Playlist := { type := .master }

/-- The playlist parsed back from the encoding of pDeg: the encoder
    emits only the header, which re-parses as an empty media playlist. -/
def qDeg : M3U8Playlist := { type := .media }

/-- The version tag of the round-trip witness text. -/
def wVersionTag : Tag :=
  { name := "EXT-X-VERSION", value := some ("3"), rawLine := "#EXT-X-VERSION:3" }

/-- The EXTINF tag of the round-trip witness text. -/
def wExtinfTag : Tag :=
  { name := "EXTINF", value := some ("9.5,Segment 1"), rawLine := "#EXTINF:9.5,Segment 1" }

/-- The single segment of the round-trip witness text. -/
def wSeg : MediaSegment :=
  { duration := 19 / 2, title := some ("Segment 1"), uri := "segment-0.ts"
    tags := [wExtinfTag] }

/-- The playlist parsed from the round-trip witness text. -/
def pW : M3U8Playlist :=
  { type := .media, version := some 3, tags := [wVersionTag], segments := some [wSeg] }

/-- Claimed-field equivalence of two segments: same duration, title,
    URI, discontinuity flag and tag list. -/
def segEquiv (a b : MediaSegment) : Prop :=
  a.duration = b.duration ∧ a.title = b.title ∧ a.uri = b.uri ∧
  a.discontinuity = b.discontinuity ∧ a.tags = b.tags

/-- Claimed equivalence of two playlists: same kind, same playlist-level
    tags, segments pairwise equivalent. -/
def playlistEquiv (a b : M3U8Playlist) : Prop :=
  a.type = b.type ∧ a.tags = b.tags ∧
  List.Forall₂ segEquiv (a.segments.getD []) (b.segments.getD [])

/-! ## Round-trip invariants of the parser -/

/-- A character list with no line feed, as every line produced by the
    line splitter is. -/
def CleanLine (l : Line) : Prop := '\n' ∉ l

/-- A tag as the parser produced it from one trimmed line: the raw line
    is nonempty, starts with a hash, is its own trim, is clean, and
    re-parsing it reproduces the tag. -/
def GoodTag (t : Tag) : Prop :=
  t.rawLine.data ≠ [] ∧ t.rawLine.data.head? = some '#' ∧
  jsTrim t.rawLine.data = t.rawLine.data ∧ CleanLine t.rawLine.data ∧
  parseTagOfLine t.rawLine.data = t

/-- Tag names that can never reach the playlist-level tag list. -/
def PlaylistNameBad : List String :=
  ["EXTINF", "EXT-X-STREAM-INF", "EXT-X-BYTERANGE", "EXT-X-DISCONTINUITY",
   "EXT-X-KEY", "EXT-X-MAP", "EXT-X-PROGRAM-DATE-TIME", "EXT-X-DATERANGE",
   "EXT-X-I-FRAME-STREAM-INF"]

/-- What holds of every playlist-level tag during a parse: well formed,
    not of a diverted name, and an EXT-X-MEDIA tag only ever sits there
    once the playlist kind is master. -/
def PTagOk (ty : PlaylistKind) (t : Tag) : Prop :=
  GoodTag t ∧ t.name ∉ PlaylistNameBad ∧ (t.name = "EXT-X-MEDIA" → ty = .master)

/-- Playlist-level tag of a media-kind parse. -/
def MTagOk (t : Tag) : Prop :=
  GoodTag t ∧ t.name ∉ PlaylistNameBad ∧ t.name ≠ "EXT-X-MEDIA"

/-- Names a tag processed inside an open segment context can have: the
    five globally diverted names never land there. -/
def PostNameOk (n : String) : Prop :=
  n ∉ ["EXT-X-VERSION", "EXT-X-INDEPENDENT-SEGMENTS", "EXT-X-STREAM-INF",
       "EXTINF", "EXT-X-MEDIA"]

/-- Replaying a list of in-context tags onto an open segment. -/
def replayPost (post : List Tag) (s : MediaSegment) : MediaSegment :=
  post.foldl segApplyTag s

/-- An open segment context is exactly the replay of its post-EXTINF tags
    onto the segment its EXTINF opened over the buffered tags. -/
def OpenSegWF (cs : MediaSegment) : Prop :=
  ∃ (pre : List Tag) (e : Tag) (post : List Tag),
    (∀ t ∈ pre, GoodTag t ∧ bufferableTagName t.name = true) ∧
    GoodTag e ∧ e.name = "EXTINF" ∧
    (∀ t ∈ post, GoodTag t ∧ PostNameOk t.name) ∧
    cs = replayPost post (mkSegmentFromExtinf pre e)

/-- A closed segment: a well-formed URI line plus the open-context
    reconstruction. -/
def SegWF (s : MediaSegment) : Prop :=
  s.uri.data ≠ [] ∧ s.uri.data.head? ≠ some '#' ∧
  jsTrim s.uri.data = s.uri.data ∧ CleanLine s.uri.data ∧
  ∃ (pre : List Tag) (e : Tag) (post : List Tag),
    (∀ t ∈ pre, GoodTag t ∧ bufferableTagName t.name = true) ∧
    GoodTag e ∧ e.name = "EXTINF" ∧
    (∀ t ∈ post, GoodTag t ∧ PostNameOk t.name) ∧
    s = { replayPost post (mkSegmentFromExtinf pre e) with uri := s.uri }

/-- The parser-state invariant maintained by every line. -/
def StInv (st : ParseState) : Prop :=
  (∀ t ∈ st.playlist.tags, PTagOk st.playlist.type t) ∧
  (∀ s ∈ st.playlist.segments.getD [], SegWF s) ∧
  (st.playlist.segments = none ∨
    ∃ l, st.playlist.segments = some l ∧ l ≠ []) ∧
  (∀ cs, st.currentSegment = some cs → OpenSegWF cs) ∧
  (∀ t ∈ st.segmentTags, GoodTag t ∧ bufferableTagName t.name = true) ∧
  (st.playlist.variants ≠ none → st.playlist.type = .master) ∧
  (st.currentVariant ≠ none → st.playlist.type = .master)

/-- What a finished parse guarantees of its playlist. -/
def PlaylistWF (p : M3U8Playlist) : Prop :=
  (∀ t ∈ p.tags, PTagOk p.type t) ∧
  (∀ s ∈ p.segments.getD [], SegWF s) ∧
  (p.segments = none ∨ ∃ l, p.segments = some l ∧ l ≠ []) ∧
  (p.variants ≠ none → p.type = .master)

/-! # Helper lemmas: tag bookkeeping -/

theorem findTagValue_updateFirstTag (n : String) (v : Option String) (f : Tag → Tag)
    (hv : ∀ t, (f t).value = v) (hn : ∀ t, (f t).name = t.name) :
    ∀ l : List Tag, l.any (fun t => t.name == n) = true →
      findTagValue (updateFirstTag n f l) n = some v := by
  intro l
  induction l with
  | nil => simp
  | cons t rest ih =>
    intro hany
    by_cases ht : t.name = n
    · simp only [updateFirstTag, if_pos ht, findTagValue]
      rw [List.find?_cons_of_pos]
      · simp [hv]
      · simp [hn, ht]
    · simp only [updateFirstTag, if_neg ht, findTagValue]
      rw [List.find?_cons_of_neg]
      · have hrest : rest.any (fun t => t.name == n) = true := by
          simp only [List.any_cons] at hany
          rcases Bool.or_eq_true_iff.mp hany with h | h
          · exact absurd (by simpa using h) ht
          · exact h
        exact ih hrest
      · simp [ht]

theorem findTagValue_updateFirstTag_ne (n n2 : String) (f : Tag → Tag)
    (hne : n2 ≠ n) (hn : ∀ t, (f t).name = t.name) :
    ∀ l : List Tag, findTagValue (updateFirstTag n f l) n2 = findTagValue l n2 := by
  intro l
  induction l with
  | nil => simp [updateFirstTag]
  | cons t rest ih =>
    by_cases ht : t.name = n
    · simp only [updateFirstTag, if_pos ht, findTagValue]
      rw [List.find?_cons_of_neg _ (by simp [hn, ht]; exact Ne.symm hne),
          List.find?_cons_of_neg _ (by simp [ht]; exact Ne.symm hne)]
    · simp only [updateFirstTag, if_neg ht, findTagValue]
      by_cases h2 : t.name = n2
      · rw [List.find?_cons_of_pos _ (by simp [h2]), List.find?_cons_of_pos _ (by simp [h2])]
      · rw [List.find?_cons_of_neg _ (by simp [h2]), List.find?_cons_of_neg _ (by simp [h2])]
        exact ih

theorem findTagValue_updateOrAddTag_self (m : M3U8Playlist) (n : String) (v : Option String) :
    findTagValue (updateOrAddTag m n v).tags n = some v := by
  unfold updateOrAddTag
  by_cases hany : m.tags.any (fun t => t.name == n) = true
  · rw [if_pos hany]
    show findTagValue (updateFirstTag n (setValueTag n v) m.tags) n = some v
    exact findTagValue_updateFirstTag n v (setValueTag n v)
      (fun t => rfl) (fun t => rfl) m.tags hany
  · rw [if_neg hany]
    show findTagValue (m.tags ++ [createTag n v]) n = some v
    simp only [findTagValue, List.find?_append]
    have hnone : m.tags.find? (fun t => t.name == n) = none := by
      rw [List.find?_eq_none]
      intro t htmem
      have := (List.any_eq_false (p := fun t => t.name == n)).mp (by simpa using hany) t htmem
      simpa using this
    rw [hnone]
    simp [createTag]

theorem findTagValue_updateOrAddTag_ne (m : M3U8Playlist) (n n2 : String) (v : Option String)
    (hne : n2 ≠ n) :
    findTagValue (updateOrAddTag m n v).tags n2 = findTagValue m.tags n2 := by
  unfold updateOrAddTag
  by_cases hany : m.tags.any (fun t => t.name == n) = true
  · rw [if_pos hany]
    show findTagValue (updateFirstTag n (setValueTag n v) m.tags) n2 = findTagValue m.tags n2
    exact findTagValue_updateFirstTag_ne n n2 (setValueTag n v) hne (fun t => rfl) m.tags
  · rw [if_neg hany]
    show findTagValue (m.tags ++ [createTag n v]) n2 = findTagValue m.tags n2
    simp only [findTagValue, List.find?_append]
    have : List.find? (fun t => t.name == n2) [createTag n v] = none := by
      simp [createTag, hne.symm]
    rw [this]
    simp

theorem updateOrAddTag_segments (m : M3U8Playlist) (n : String) (v : Option String) :
    (updateOrAddTag m n v).segments = m.segments := by
  unfold updateOrAddTag
  split <;> rfl

theorem findTagValue_filter_keep (q : Tag → Bool) (n : String)
    (hq : ∀ t : Tag, t.name = n → q t = true) :
    ∀ l : List Tag, findTagValue (l.filter q) n = findTagValue l n := by
  intro l
  induction l with
  | nil => simp
  | cons t rest ih =>
    by_cases hname : t.name = n
    · have : q t = true := hq t hname
      simp only [List.filter_cons, this, if_pos]
      simp only [findTagValue]
      rw [List.find?_cons_of_pos, List.find?_cons_of_pos] <;> simp [hname]
    · cases hqt : q t
      · rw [List.filter_cons_of_neg (by simp [hqt])]
        simp only [findTagValue] at ih ⊢
        rw [List.find?_cons_of_neg _ (by simp [hname])]
        exact ih
      · rw [List.filter_cons_of_pos hqt]
        simp only [findTagValue] at ih ⊢
        rw [List.find?_cons_of_neg _ (by simp [hname]), List.find?_cons_of_neg _ (by simp [hname])]
        exact ih

theorem generateVariantP_segments (m : M3U8Playlist) (a b : ℕ) :
    (generateVariantP m a b).segments = m.segments := by
  unfold generateVariantP
  split
  · rfl
  · simp [updateOrAddTag_segments]

theorem generateVariantP_emits (m : M3U8Playlist) (a b : ℕ)
    (h : (m.segments.getD []) ≠ []) :
    findTagValue (generateVariantP m a b).tags ("EXT-X-MEDIA-SEQUENCE")
      = some (some (Nat.repr a)) ∧
    findTagValue (generateVariantP m a b).tags ("EXT-X-DISCONTINUITY-SEQUENCE")
      = some (some (Nat.repr b)) := by
  unfold generateVariantP
  rw [if_neg (by simpa [List.isEmpty_iff] using h)]
  constructor
  · rw [findTagValue_filter_keep _ _ (by intro t ht; simp [ht])]
    rw [findTagValue_updateOrAddTag_ne _ _ _ _ (by decide)]
    rw [findTagValue_updateOrAddTag_ne _ _ _ _ (by decide)]
    exact findTagValue_updateOrAddTag_self _ _ _
  · rw [findTagValue_filter_keep _ _ (by intro t ht; simp [ht])]
    rw [findTagValue_updateOrAddTag_ne _ _ _ _ (by decide)]
    exact findTagValue_updateOrAddTag_self _ _ _

/-! # Helper lemmas: the sliding-window loop -/

theorem shuffleLoop_zero_cons (vod : List MediaSegment) (st : ShuffleState)
    (hd : MediaSegment) (tl : List MediaSegment) (hw : st.window = hd :: tl) :
    shuffleLoop vod 0 st = if st.elapsed > hd.duration then .diverge else .ok st := by
  have h0 : shuffleLoop vod 0 st =
      match st.window with
      | [] => ShuffleOutcome.crash
      | head :: _ => if st.elapsed > head.duration then .diverge else .ok st := rfl
  rw [h0, hw]

theorem shuffleLoop_succ_cons (vod : List MediaSegment) (n : ℕ) (st : ShuffleState)
    (hd : MediaSegment) (tl : List MediaSegment) (hw : st.window = hd :: tl) :
    shuffleLoop vod (n + 1) st =
      if st.elapsed > hd.duration then shuffleLoop vod n (shuffleStep vod st)
      else .ok st := by
  have h0 : shuffleLoop vod (n + 1) st =
      match st.window with
      | [] => ShuffleOutcome.crash
      | head :: _ =>
        if st.elapsed > head.duration then shuffleLoop vod n (shuffleStep vod st)
        else .ok st := rfl
  rw [h0, hw]

theorem shuffleLoop_crash_of_empty (vod : List MediaSegment) (fuel : ℕ) (st : ShuffleState)
    (h : st.window = []) : shuffleLoop vod fuel st = .crash := by
  cases fuel with
  | zero =>
    have h0 : shuffleLoop vod 0 st =
        match st.window with
        | [] => ShuffleOutcome.crash
        | head :: _ => if st.elapsed > head.duration then .diverge else .ok st := rfl
    rw [h0, h]
  | succ n =>
    have h0 : shuffleLoop vod (n + 1) st =
        match st.window with
        | [] => ShuffleOutcome.crash
        | head :: _ =>
          if st.elapsed > head.duration then shuffleLoop vod n (shuffleStep vod st)
          else .ok st := rfl
    rw [h0, h]

theorem shuffleStep_window_length (vod : List MediaSegment) (st : ShuffleState) :
    (shuffleStep vod st).window.length = st.window.length := by
  simp [shuffleStep]

theorem shuffleLoop_ok_length (vod : List MediaSegment) :
    ∀ (fuel : ℕ) (st r : ShuffleState), shuffleLoop vod fuel st = .ok r →
      r.window.length = st.window.length := by
  intro fuel
  induction fuel with
  | zero =>
    intro st r h
    cases hw : st.window with
    | nil => rw [shuffleLoop_crash_of_empty vod 0 st hw] at h; exact absurd h (by simp)
    | cons hd tl =>
      rw [shuffleLoop_zero_cons vod st hd tl hw] at h
      by_cases hc : st.elapsed > hd.duration
      · rw [if_pos hc] at h; exact absurd h (by simp)
      · rw [if_neg hc] at h
        cases h
        rw [hw]
  | succ n ih =>
    intro st r h
    cases hw : st.window with
    | nil => rw [shuffleLoop_crash_of_empty vod _ st hw] at h; exact absurd h (by simp)
    | cons hd tl =>
      rw [shuffleLoop_succ_cons vod n st hd tl hw] at h
      by_cases hc : st.elapsed > hd.duration
      · rw [if_pos hc] at h
        rw [ih _ _ h, shuffleStep_window_length, hw]
      · rw [if_neg hc] at h
        cases h
        rw [hw]

theorem shuffleLoop_ok_window_ne (vod : List MediaSegment) :
    ∀ (fuel : ℕ) (st r : ShuffleState), shuffleLoop vod fuel st = .ok r →
      st.window ≠ [] := by
  intro fuel st r h hw
  rw [shuffleLoop_crash_of_empty vod fuel st hw] at h
  exact absurd h (by simp)

theorem shuffleLoop_ok_result_ne (vod : List MediaSegment) :
    ∀ (fuel : ℕ) (st r : ShuffleState), shuffleLoop vod fuel st = .ok r →
      r.window ≠ [] := by
  intro fuel
  induction fuel with
  | zero =>
    intro st r h
    cases hw : st.window with
    | nil => rw [shuffleLoop_crash_of_empty vod 0 st hw] at h; exact absurd h (by simp)
    | cons hd tl =>
      rw [shuffleLoop_zero_cons vod st hd tl hw] at h
      by_cases hc : st.elapsed > hd.duration
      · rw [if_pos hc] at h; exact absurd h (by simp)
      · rw [if_neg hc] at h
        cases h
        simp [hw]
  | succ n ih =>
    intro st r h
    cases hw : st.window with
    | nil => rw [shuffleLoop_crash_of_empty vod _ st hw] at h; exact absurd h (by simp)
    | cons hd tl =>
      rw [shuffleLoop_succ_cons vod n st hd tl hw] at h
      by_cases hc : st.elapsed > hd.duration
      · rw [if_pos hc] at h
        exact ih _ _ h
      · rw [if_neg hc] at h
        cases h
        simp [hw]

theorem shuffleLoop_counters_mono (vod : List MediaSegment) :
    ∀ (fuel : ℕ) (st r : ShuffleState), shuffleLoop vod fuel st = .ok r →
      st.mediaSequence ≤ r.mediaSequence ∧
      st.discontinuitySequence ≤ r.discontinuitySequence := by
  intro fuel
  induction fuel with
  | zero =>
    intro st r h
    cases hw : st.window with
    | nil => rw [shuffleLoop_crash_of_empty vod 0 st hw] at h; exact absurd h (by simp)
    | cons hd tl =>
      rw [shuffleLoop_zero_cons vod st hd tl hw] at h
      by_cases hc : st.elapsed > hd.duration
      · rw [if_pos hc] at h; exact absurd h (by simp)
      · rw [if_neg hc] at h
        cases h
        exact ⟨le_refl _, le_refl _⟩
  | succ n ih =>
    intro st r h
    cases hw : st.window with
    | nil => rw [shuffleLoop_crash_of_empty vod _ st hw] at h; exact absurd h (by simp)
    | cons hd tl =>
      rw [shuffleLoop_succ_cons vod n st hd tl hw] at h
      by_cases hc : st.elapsed > hd.duration
      · rw [if_pos hc] at h
        have hstep := ih _ _ h
        have h1 : st.mediaSequence ≤ (shuffleStep vod st).mediaSequence := by
          simp [shuffleStep]
        have h2 : st.discontinuitySequence ≤ (shuffleStep vod st).discontinuitySequence := by
          simp [shuffleStep]
        exact ⟨le_trans h1 hstep.1, le_trans h2 hstep.2⟩
      · rw [if_neg hc] at h
        cases h
        exact ⟨le_refl _, le_refl _⟩

theorem shuffleStep_cons (vod : List MediaSegment) (hd : MediaSegment)
    (tl : List MediaSegment) (e : ℚ) (ms ds nt : ℕ) :
    shuffleStep vod ⟨hd :: tl, e, ms, ds, nt⟩ =
      ⟨tl ++ [shuffleNextSeg vod nt], e - hd.duration, ms + 1,
       ds + (if hd.discontinuity then 1 else 0), nt + 1⟩ := rfl

theorem shuffleLoop_mono (vod : List MediaSegment) :
    ∀ (fuel1 fuel2 : ℕ) (w : List MediaSegment) (e1 e2 : ℚ) (ms ds nt : ℕ)
      (r1 r2 : ShuffleState),
      e1 ≤ e2 →
      shuffleLoop vod fuel1 ⟨w, e1, ms, ds, nt⟩ = .ok r1 →
      shuffleLoop vod fuel2 ⟨w, e2, ms, ds, nt⟩ = .ok r2 →
      r1.mediaSequence ≤ r2.mediaSequence ∧
      r1.discontinuitySequence ≤ r2.discontinuitySequence := by
  intro fuel1
  induction fuel1 with
  | zero =>
    intro fuel2 w e1 e2 ms ds nt r1 r2 hle h1 h2
    cases hw : w with
    | nil =>
      subst hw
      rw [shuffleLoop_crash_of_empty vod 0 _ rfl] at h1
      exact absurd h1 (by simp)
    | cons hd tl =>
      subst hw
      rw [shuffleLoop_zero_cons vod _ hd tl rfl] at h1
      by_cases hc1 : e1 > hd.duration
      · rw [if_pos hc1] at h1
        exact absurd h1 (by simp)
      · rw [if_neg hc1] at h1
        cases h1
        exact shuffleLoop_counters_mono vod fuel2 ⟨hd :: tl, e2, ms, ds, nt⟩ r2 h2
  | succ n ih =>
    intro fuel2 w e1 e2 ms ds nt r1 r2 hle h1 h2
    cases hw : w with
    | nil =>
      subst hw
      rw [shuffleLoop_crash_of_empty vod _ _ rfl] at h1
      exact absurd h1 (by simp)
    | cons hd tl =>
      subst hw
      rw [shuffleLoop_succ_cons vod n _ hd tl rfl] at h1
      by_cases hc1 : e1 > hd.duration
      · rw [if_pos hc1] at h1
        have hc2 : e2 > hd.duration := lt_of_lt_of_le hc1 hle
        cases fuel2 with
        | zero =>
          rw [shuffleLoop_zero_cons vod _ hd tl rfl] at h2
          rw [if_pos hc2] at h2
          exact absurd h2 (by simp)
        | succ fm =>
          rw [shuffleLoop_succ_cons vod fm _ hd tl rfl] at h2
          rw [if_pos hc2] at h2
          rw [shuffleStep_cons] at h1 h2
          exact ih fm _ _ _ _ _ _ _ _ (by linarith) h1 h2
      · rw [if_neg hc1] at h1
        cases h1
        exact shuffleLoop_counters_mono vod fuel2 ⟨hd :: tl, e2, ms, ds, nt⟩ r2 h2

/-! # Helper lemmas: minimum duration and termination -/

theorem segFoldMin_le_init (l : List MediaSegment) :
    ∀ a : ℚ, l.foldl (fun acc t => min acc t.duration) a ≤ a := by
  induction l with
  | nil => intro a; simp
  | cons s rest ih =>
    intro a
    calc rest.foldl (fun acc t => min acc t.duration) (min a s.duration)
        ≤ min a s.duration := ih _
      _ ≤ a := min_le_left _ _

theorem segFoldMin_le_mem (l : List MediaSegment) :
    ∀ (a : ℚ) (x : MediaSegment), x ∈ l →
      l.foldl (fun acc t => min acc t.duration) a ≤ x.duration := by
  induction l with
  | nil => intro a x hx; exact absurd hx (by simp)
  | cons s rest ih =>
    intro a x hx
    rcases List.mem_cons.mp hx with h | h
    · subst h
      calc rest.foldl (fun acc t => min acc t.duration) (min a x.duration)
          ≤ min a x.duration := segFoldMin_le_init rest _
        _ ≤ x.duration := min_le_right _ _
    · exact ih _ x h

theorem segFoldMin_pos (l : List MediaSegment) :
    ∀ a : ℚ, 0 < a → (∀ x ∈ l, 0 < x.duration) →
      0 < l.foldl (fun acc t => min acc t.duration) a := by
  induction l with
  | nil => intro a ha _; simpa using ha
  | cons s rest ih =>
    intro a ha hl
    exact ih _ (lt_min ha (hl s (List.mem_cons_self _ _)))
      (fun x hx => hl x (List.mem_cons_of_mem _ hx))

theorem minDuration_le (vod : List MediaSegment) :
    ∀ s ∈ vod, minDuration vod ≤ s.duration := by
  cases vod with
  | nil => intro s hs; exact absurd hs (by simp)
  | cons s0 rest =>
    intro s hs
    rcases List.mem_cons.mp hs with h | h
    · subst h
      exact segFoldMin_le_init rest _
    · exact segFoldMin_le_mem rest _ s h

theorem minDuration_pos (vod : List MediaSegment)
    (h : ∀ s ∈ vod, 0 < s.duration) (hne : vod ≠ []) : 0 < minDuration vod := by
  cases vod with
  | nil => exact absurd rfl hne
  | cons s0 rest =>
    exact segFoldMin_pos rest _ (h s0 (List.mem_cons_self _ _))
      (fun x hx => h x (List.mem_cons_of_mem _ hx))

theorem shuffleNextSeg_duration_mem (vod : List MediaSegment) (hvne : vod ≠ []) (nt : ℕ) :
    ∃ s ∈ vod, (shuffleNextSeg vod nt).duration = s.duration := by
  have hlen : 0 < vod.length := List.length_pos.mpr hvne
  have hlt : nt % vod.length < vod.length := Nat.mod_lt _ hlen
  refine ⟨vod.get ⟨nt % vod.length, hlt⟩, List.get_mem _ _ _, ?_⟩
  simp only [shuffleNextSeg, List.get?_eq_get hlt, Option.getD_some]
  split <;> rfl

theorem shuffleLoop_terminates (vod : List MediaSegment) (m : ℚ) (hm : 0 < m)
    (hvod : ∀ s ∈ vod, m ≤ s.duration) (hvne : vod ≠ []) :
    ∀ (fuel : ℕ) (st : ShuffleState),
      (∀ s ∈ st.window, m ≤ s.duration) → st.window ≠ [] →
      st.elapsed ≤ m * fuel + m → ∃ r, shuffleLoop vod fuel st = .ok r := by
  intro fuel
  induction fuel with
  | zero =>
    intro st hw hne hb
    cases hwin : st.window with
    | nil => exact absurd hwin hne
    | cons hd tl =>
      rw [shuffleLoop_zero_cons vod st hd tl hwin]
      have hhd : m ≤ hd.duration := hw hd (by rw [hwin]; exact List.mem_cons_self _ _)
      have hb2 : st.elapsed ≤ m := by push_cast at hb; linarith
      rw [if_neg (not_lt.mpr (le_trans hb2 hhd))]
      exact ⟨st, rfl⟩
  | succ n ih =>
    intro st hw hne hb
    cases hwin : st.window with
    | nil => exact absurd hwin hne
    | cons hd tl =>
      rw [shuffleLoop_succ_cons vod n st hd tl hwin]
      by_cases hc : st.elapsed > hd.duration
      · rw [if_pos hc]
        have hwnd : (shuffleStep vod st).window = tl ++ [shuffleNextSeg vod st.nextTailIndex] := by
          simp [shuffleStep, hwin]
        have he : (shuffleStep vod st).elapsed = st.elapsed - hd.duration := by
          simp [shuffleStep, hwin]
        apply ih (shuffleStep vod st)
        · intro s hs
          rw [hwnd] at hs
          rcases List.mem_append.mp hs with h | h
          · exact hw s (by rw [hwin]; exact List.mem_cons_of_mem _ h)
          · have hseq : s = shuffleNextSeg vod st.nextTailIndex := by simpa using h
            subst hseq
            obtain ⟨s2, hs2mem, hs2⟩ := shuffleNextSeg_duration_mem vod hvne st.nextTailIndex
            rw [hs2]
            exact hvod s2 hs2mem
        · intro hnil
          rw [hnil] at hwnd
          exact absurd hwnd.symm (by simp)
        · have hhd : m ≤ hd.duration := hw hd (by rw [hwin]; exact List.mem_cons_self _ _)
          rw [he]
          push_cast at hb ⊢
          linarith
      · rw [if_neg hc]
        exact ⟨st, rfl⟩

theorem shuffleVariantRun_ok (vod : List MediaSegment) (start now : ℚ) (W : ℕ)
    (hne : vod ≠ []) (hpos : ∀ s ∈ vod, 0 < s.duration) (hW : 1 ≤ W) :
    ∃ r, shuffleVariantRun vod start now W = .ok r := by
  have hm : 0 < minDuration vod := minDuration_pos vod hpos hne
  have hml : ∀ s ∈ vod, minDuration vod ≤ s.duration := minDuration_le vod
  set m := minDuration vod with hmdef
  set e := (now - start) / 1000 with hedef
  have hfuel : shuffleFuel vod e = (⌈e / m⌉).toNat + 1 := by
    cases vod with
    | nil => exact absurd rfl hne
    | cons s0 rest =>
      unfold shuffleFuel
      rw [if_pos (show (0:ℚ) < minDuration (s0 :: rest) from hm)]
  unfold shuffleVariantRun
  rw [← hedef, hfuel]
  apply shuffleLoop_terminates vod m hm hml hne
  · intro s hs
    exact hml s (List.take_subset _ _ hs)
  · have h1w : 1 ≤ min W vod.length := le_min hW (List.length_pos.mpr hne)
    have : (shuffleInit vod start now W).window.length = min W vod.length := by
      simp only [shuffleInit, List.length_take]
      exact min_eq_left (min_le_right _ _)
    intro hnil
    rw [hnil] at this
    simp only [List.length_nil] at this
    omega
  · show e ≤ m * ((⌈e / m⌉).toNat + 1 : ℕ) + m
    by_cases hle : e ≤ 0
    · have h0 : (0:ℚ) ≤ ((⌈e / m⌉).toNat : ℚ) := Nat.cast_nonneg _
      push_cast
      nlinarith
    · push_neg at hle
      have hdiv : e / m ≤ ((⌈e / m⌉ : ℤ) : ℚ) := Int.le_ceil _
      have hcn : (0:ℤ) ≤ ⌈e / m⌉ := Int.ceil_nonneg (div_nonneg hle.le hm.le)
      have htn : (((⌈e / m⌉).toNat : ℤ) : ℚ) = ((⌈e / m⌉ : ℤ) : ℚ) := by
        exact_mod_cast congrArg (fun z : ℤ => (z : ℚ)) (Int.toNat_of_nonneg hcn)
      have hmul : e ≤ ((⌈e / m⌉ : ℤ) : ℚ) * m := (div_le_iff₀ hm).mp hdiv
      push_cast at htn ⊢
      nlinarith

theorem shuffleLoop_allZero_diverge (vod : List MediaSegment) (hvne : vod ≠ [])
    (hz : ∀ s ∈ vod, s.duration = 0) :
    ∀ (fuel : ℕ) (st : ShuffleState), st.window ≠ [] →
      (∀ s ∈ st.window, s.duration = 0) → 0 < st.elapsed →
      shuffleLoop vod fuel st = .diverge := by
  intro fuel
  induction fuel with
  | zero =>
    intro st hne hw he
    cases hwin : st.window with
    | nil => exact absurd hwin hne
    | cons hd tl =>
      rw [shuffleLoop_zero_cons vod st hd tl hwin]
      have : hd.duration = 0 := hw hd (by rw [hwin]; exact List.mem_cons_self _ _)
      rw [if_pos (by rw [this]; exact he)]
  | succ n ih =>
    intro st hne hw he
    cases hwin : st.window with
    | nil => exact absurd hwin hne
    | cons hd tl =>
      rw [shuffleLoop_succ_cons vod n st hd tl hwin]
      have hhd : hd.duration = 0 := hw hd (by rw [hwin]; exact List.mem_cons_self _ _)
      rw [if_pos (by rw [hhd]; exact he)]
      have hwnd : (shuffleStep vod st).window = tl ++ [shuffleNextSeg vod st.nextTailIndex] := by
        simp [shuffleStep, hwin]
      have he2 : (shuffleStep vod st).elapsed = st.elapsed - hd.duration := by
        simp [shuffleStep, hwin]
      apply ih
      · intro hnil
        rw [hnil] at hwnd
        exact absurd hwnd.symm (by simp)
      · intro s hs
        rw [hwnd] at hs
        rcases List.mem_append.mp hs with h | h
        · exact hw s (by rw [hwin]; exact List.mem_cons_of_mem _ h)
        · have hseq : s = shuffleNextSeg vod st.nextTailIndex := by simpa using h
          subst hseq
          obtain ⟨s2, hs2mem, hs2⟩ := shuffleNextSeg_duration_mem vod hvne st.nextTailIndex
          rw [hs2]
          exact hz s2 hs2mem
      · rw [he2, hhd]
        linarith

/-! # Helper lemmas: total and maximum duration -/

theorem totalDuration_foldl_shift (l : List MediaSegment) :
    ∀ a : ℚ, l.foldl (fun acc s => acc + s.duration) a = a + totalDuration l := by
  induction l with
  | nil => intro a; simp [totalDuration]
  | cons s rest ih =>
    intro a
    show rest.foldl (fun acc s => acc + s.duration) (a + s.duration)
      = a + totalDuration (s :: rest)
    rw [ih]
    have : totalDuration (s :: rest)
        = rest.foldl (fun acc s => acc + s.duration) (0 + s.duration) := rfl
    rw [this, ih]
    ring

theorem totalDuration_snoc (l : List MediaSegment) (s : MediaSegment) :
    totalDuration (l ++ [s]) = totalDuration l + s.duration := by
  unfold totalDuration
  rw [List.foldl_append]
  rw [totalDuration_foldl_shift [s] (List.foldl (fun acc s => acc + s.duration) 0 l)]
  have : totalDuration [s] = s.duration := by
    show (0:ℚ) + s.duration = s.duration
    ring
  rw [this]

theorem segFoldMax_ge_init (l : List MediaSegment) :
    ∀ a : ℚ, a ≤ l.foldl (fun mx s => max mx s.duration) a := by
  induction l with
  | nil => intro a; simp
  | cons s rest ih =>
    intro a
    calc a ≤ max a s.duration := le_max_left _ _
      _ ≤ rest.foldl (fun mx s => max mx s.duration) (max a s.duration) := ih _

theorem segFoldMax_ge_mem (l : List MediaSegment) :
    ∀ (a : ℚ) (x : MediaSegment), x ∈ l →
      x.duration ≤ l.foldl (fun mx s => max mx s.duration) a := by
  induction l with
  | nil => intro a x hx; exact absurd hx (by simp)
  | cons s rest ih =>
    intro a x hx
    rcases List.mem_cons.mp hx with h | h
    · subst h
      calc x.duration ≤ max a x.duration := le_max_right _ _
        _ ≤ rest.foldl (fun mx s => max mx s.duration) (max a x.duration) :=
          segFoldMax_ge_init rest _
    · exact ih _ x h

theorem maxDuration_ge (vod : List MediaSegment) :
    ∀ s ∈ vod, s.duration ≤ maxDuration vod := by
  intro s hs
  exact segFoldMax_ge_mem vod 0 s hs

/-! # Helper lemmas: the fit loop -/

theorem fitLoop_zero (vod : List MediaSegment) (D acc : ℚ) (built : List MediaSegment) (i : ℕ) :
    fitLoop vod D 0 acc built i = if acc < D then none else some (built, acc) := rfl

theorem fitLoop_succ (vod : List MediaSegment) (D acc : ℚ) (built : List MediaSegment)
    (i n : ℕ) :
    fitLoop vod D (n + 1) acc built i =
      if acc < D then
        fitLoop vod D n (acc + (fitNextSeg vod i).duration) (built ++ [fitNextSeg vod i]) (i + 1)
      else some (built, acc) := rfl

theorem fitNextSeg_duration_mem (vod : List MediaSegment) (hvne : vod ≠ []) (i : ℕ) :
    ∃ s ∈ vod, (fitNextSeg vod i).duration = s.duration := by
  have hlen : 0 < vod.length := List.length_pos.mpr hvne
  have hlt : i % vod.length < vod.length := Nat.mod_lt _ hlen
  refine ⟨vod.get ⟨i % vod.length, hlt⟩, List.get_mem _ _ _, ?_⟩
  simp only [fitNextSeg, List.get?_eq_get hlt, Option.getD_some]
  split <;> rfl

theorem fitLoop_bounds (vod : List MediaSegment) (D M : ℚ)
    (hM : ∀ s ∈ vod, s.duration ≤ M) (hvne : vod ≠ []) :
    ∀ (fuel : ℕ) (acc : ℚ) (built : List MediaSegment) (i : ℕ) (b2 : List MediaSegment) (a2 : ℚ),
      fitLoop vod D fuel acc built i = some (b2, a2) →
      (D ≤ acc → a2 = acc) ∧ (acc < D → D ≤ a2 ∧ a2 < D + M) := by
  intro fuel
  induction fuel with
  | zero =>
    intro acc built i b2 a2 h
    rw [fitLoop_zero] at h
    by_cases hacc : acc < D
    · rw [if_pos hacc] at h
      exact absurd h (by simp)
    · rw [if_neg hacc] at h
      cases h
      exact ⟨fun _ => rfl, fun hlt => absurd hlt hacc⟩
  | succ n ih =>
    intro acc built i b2 a2 h
    rw [fitLoop_succ] at h
    by_cases hacc : acc < D
    · rw [if_pos hacc] at h
      have hrec := ih _ _ _ _ _ h
      have hdM : (fitNextSeg vod i).duration ≤ M := by
        obtain ⟨s, hsmem, hs⟩ := fitNextSeg_duration_mem vod hvne i
        rw [hs]
        exact hM s hsmem
      refine ⟨fun hD => absurd hD (not_le.mpr hacc), fun _ => ?_⟩
      by_cases hacc2 : acc + (fitNextSeg vod i).duration < D
      · exact hrec.2 hacc2
      · have ha2 : a2 = acc + (fitNextSeg vod i).duration := hrec.1 (not_lt.mp hacc2)
        constructor
        · rw [ha2]; exact not_lt.mp hacc2
        · rw [ha2]; linarith
    · rw [if_neg hacc] at h
      cases h
      exact ⟨fun _ => rfl, fun hlt => absurd hlt hacc⟩

theorem fitLoop_sum (vod : List MediaSegment) (D : ℚ) :
    ∀ (fuel : ℕ) (acc : ℚ) (built : List MediaSegment) (i : ℕ) (b2 : List MediaSegment) (a2 : ℚ),
      fitLoop vod D fuel acc built i = some (b2, a2) →
      acc = totalDuration built → a2 = totalDuration b2 := by
  intro fuel
  induction fuel with
  | zero =>
    intro acc built i b2 a2 h hsync
    rw [fitLoop_zero] at h
    by_cases hacc : acc < D
    · rw [if_pos hacc] at h; exact absurd h (by simp)
    · rw [if_neg hacc] at h
      cases h
      exact hsync
  | succ n ih =>
    intro acc built i b2 a2 h hsync
    rw [fitLoop_succ] at h
    by_cases hacc : acc < D
    · rw [if_pos hacc] at h
      exact ih _ _ _ _ _ h (by rw [totalDuration_snoc, ← hsync])
    · rw [if_neg hacc] at h
      cases h
      exact hsync

theorem fitLoop_terminates (vod : List MediaSegment) (D m : ℚ) (hm : 0 < m)
    (hvod : ∀ s ∈ vod, m ≤ s.duration) (hvne : vod ≠ []) :
    ∀ (fuel : ℕ) (acc : ℚ) (built : List MediaSegment) (i : ℕ),
      D ≤ acc + m * fuel → ∃ res, fitLoop vod D fuel acc built i = some res := by
  intro fuel
  induction fuel with
  | zero =>
    intro acc built i hb
    rw [fitLoop_zero]
    have : D ≤ acc := by push_cast at hb; linarith
    rw [if_neg (not_lt.mpr this)]
    exact ⟨(built, acc), rfl⟩
  | succ n ih =>
    intro acc built i hb
    rw [fitLoop_succ]
    by_cases hacc : acc < D
    · rw [if_pos hacc]
      apply ih
      have hdm : m ≤ (fitNextSeg vod i).duration := by
        obtain ⟨s, hsmem, hs⟩ := fitNextSeg_duration_mem vod hvne i
        rw [hs]
        exact hvod s hsmem
      push_cast at hb ⊢
      linarith
    · rw [if_neg hacc]
      exact ⟨(built, acc), rfl⟩

theorem generateVODVariantP_segments (m : M3U8Playlist) :
    (generateVODVariantP m).segments = m.segments := by
  unfold generateVODVariantP
  simp [updateOrAddTag_segments]

/-! # Helper lemmas: interval starts and the ad walk -/

theorem intervalStarts_mem (ws we dur iv : ℚ) :
    ∀ (fuel : ℕ) (t : ℚ) (l : List ℚ),
      intervalStarts ws we dur iv fuel t = some l →
      ∀ x ∈ l, ∃ k : ℕ, x = t + k * iv := by
  intro fuel
  induction fuel with
  | zero =>
    intro t l h
    unfold intervalStarts at h
    by_cases hc : t < we
    · rw [if_pos hc] at h; exact absurd h (by simp)
    · rw [if_neg hc] at h
      cases h
      intro x hx
      exact absurd hx (by simp)
  | succ n ih =>
    intro t l h
    unfold intervalStarts at h
    by_cases hc : t < we
    · rw [if_pos hc] at h
      cases hrec : intervalStarts ws we dur iv n (t + iv) with
      | none => rw [hrec] at h; exact absurd h (by simp)
      | some rest =>
        rw [hrec] at h
        simp only [Option.some.injEq] at h
        subst h
        intro x hx
        have hxrest : x = t ∨ x ∈ rest := by
          by_cases hcond : t + dur > ws
          · rw [if_pos hcond] at hx
            exact List.mem_cons.mp hx
          · rw [if_neg hcond] at hx
            exact Or.inr hx
        rcases hxrest with h | h
        · exact ⟨0, by rw [h]; push_cast; ring⟩
        · obtain ⟨k, hk⟩ := ih (t + iv) rest hrec x h
          exact ⟨k + 1, by rw [hk]; push_cast; ring⟩
    · rw [if_neg hc] at h
      cases h
      intro x hx
      exact absurd hx (by simp)

theorem intervalStarts_terminates (ws we dur iv : ℚ) (hiv : 0 < iv) :
    ∀ (fuel : ℕ) (t : ℚ), we ≤ t + iv * fuel →
      ∃ l, intervalStarts ws we dur iv fuel t = some l := by
  intro fuel
  induction fuel with
  | zero =>
    intro t hb
    unfold intervalStarts
    have : we ≤ t := by push_cast at hb; linarith
    rw [if_neg (not_lt.mpr this)]
    exact ⟨[], rfl⟩
  | succ n ih =>
    intro t hb
    unfold intervalStarts
    by_cases hc : t < we
    · rw [if_pos hc]
      obtain ⟨l, hl⟩ := ih (t + iv) (by push_cast at hb ⊢; linarith)
      rw [hl]
      exact ⟨_, rfl⟩
    · rw [if_neg hc]
      exact ⟨[], rfl⟩

theorem adWalk_frame (starts : List ℚ) (dur : ℚ) :
    ∀ (segs : List MediaSegment) (t : ℚ) (b : Bool),
      List.Forall₂ adFrame segs (adWalk starts dur segs t b) := by
  intro segs
  induction segs with
  | nil => intro t b; exact List.Forall₂.nil
  | cons s rest ih =>
    intro t b
    show List.Forall₂ adFrame (s :: rest) (adWalk starts dur (s :: rest) t b)
    unfold adWalk
    cases hfind : starts.find? (fun a =>
        decide (t ≥ a - 1 / 1000) && decide (t < a + dur)) with
    | some adStart =>
      apply List.Forall₂.cons
      · by_cases hel : t - adStart < 1 / 1000
        · rw [if_pos hel]
          exact ⟨rfl, Or.inr ⟨_, by simp [createTag, adCueNames], rfl⟩⟩
        · rw [if_neg hel]
          exact ⟨rfl, Or.inr ⟨_, by simp [createTag, adCueNames], rfl⟩⟩
      · exact ih _ _
    | none =>
      apply List.Forall₂.cons
      · by_cases hprev : b = true
        · subst hprev
          rw [if_pos rfl]
          exact ⟨rfl, Or.inr ⟨_, by simp [createTag, adCueNames], rfl⟩⟩
        · have : b = false := by
            cases b
            · rfl
            · exact absurd rfl hprev
          subst this
          rw [if_neg (by simp)]
          exact ⟨rfl, Or.inl rfl⟩
      · exact ih _ _

/-! # Claim theorems -/

/-- Claim C1, counterexample: with a source segment of duration zero
    (EXTINF of 0, one segment, window size 1, two seconds elapsed) the
    sliding loop never exits, for the canonical fuel and for every fuel,
    so no output playlist with min(W, L) segments exists. -/
theorem claim1_counterexample :
    shuffleVariantRun vodZero 0 2000 1 = .diverge ∧ shuffleZeroDiverges := by
  constructor
  · with_unfolding_all decide
  · intro fuel
    exact shuffleLoop_allZero_diverge vodZero (by decide) (by decide) fuel _
      (by with_unfolding_all decide) (by with_unfolding_all decide)
      (by with_unfolding_all decide)

/-- Claim C1 (amended): for every source media playlist with at least one
    segment, all of whose durations are strictly positive, and every
    start, now and window size at least one, the live windower emits a
    playlist of exactly min(W, L) segments, and the window length equals
    min(W, L) initially and after every iteration of the sliding loop. -/
theorem claim1_amended (manifest : M3U8Playlist) (start now : ℚ) (W : ℕ)
    (hne : manifest.segments.getD [] ≠ [])
    (hpos : ∀ s ∈ manifest.segments.getD [], 0 < s.duration)
    (hW : 1 ≤ W) :
    windowInvariantSpec manifest start now W := by
  have hinit : (shuffleInit (manifest.segments.getD []) start now W).window.length
      = min W (manifest.segments.getD []).length := by
    simp only [shuffleInit, List.length_take]
    exact min_eq_left (min_le_right _ _)
  refine ⟨?_, hinit, ?_⟩
  · obtain ⟨r, hr⟩ := shuffleVariantRun_ok (manifest.segments.getD []) start now W hne hpos hW
    unfold shuffleVariantRun at hr
    refine ⟨liveWindowOutput manifest r, ?_, ?_⟩
    · simp only [shuffleVariantPCanon, shuffleVariantP]
      rw [hr]
      rfl
    · have hseg : (liveWindowOutput manifest r).segments = some r.window := by
        unfold liveWindowOutput
        rw [generateVariantP_segments]
      rw [hseg]
      simp only [Option.getD_some]
      rw [shuffleLoop_ok_length _ _ _ _ hr, hinit]
  · intro st hlen
    rw [shuffleStep_window_length, hlen]

/-- Witness for the amended claim C1 at a concrete input. -/
theorem claim1_witness : windowInvariantSpec pAB 0 15000 3 :=
  claim1_amended pAB 0 15000 3 (by decide) (by with_unfolding_all decide) (by decide)

/-- Claim C2: holding the source, start and window size fixed, with all
    durations strictly positive, two completed runs at now1 le now2 have
    non-decreasing media-sequence and discontinuity-sequence counters, and
    each output playlist emits exactly those counters in its tags. -/
theorem claim2_monotone (manifest : M3U8Playlist) (start now1 now2 : ℚ)
    (W fuel1 fuel2 : ℕ) (r1 r2 : ShuffleState)
    (hpos : ∀ s ∈ manifest.segments.getD [], 0 < s.duration)
    (hn : now1 ≤ now2)
    (h1 : shuffleLoop (manifest.segments.getD []) fuel1
      (shuffleInit (manifest.segments.getD []) start now1 W) = .ok r1)
    (h2 : shuffleLoop (manifest.segments.getD []) fuel2
      (shuffleInit (manifest.segments.getD []) start now2 W) = .ok r2) :
    monotoneEmitted manifest r1 r2 := by
  have hediv : (now1 - start) / 1000 ≤ (now2 - start) / 1000 :=
    div_le_div_of_nonneg_right (by linarith) (by norm_num)
  have h1x : shuffleLoop (manifest.segments.getD []) fuel1
      ⟨(manifest.segments.getD []).take (min W (manifest.segments.getD []).length),
       (now1 - start) / 1000, 0, 0, min W (manifest.segments.getD []).length⟩ = .ok r1 := h1
  have h2x : shuffleLoop (manifest.segments.getD []) fuel2
      ⟨(manifest.segments.getD []).take (min W (manifest.segments.getD []).length),
       (now2 - start) / 1000, 0, 0, min W (manifest.segments.getD []).length⟩ = .ok r2 := h2
  have hmono := shuffleLoop_mono (manifest.segments.getD []) fuel1 fuel2
    ((manifest.segments.getD []).take (min W (manifest.segments.getD []).length))
    ((now1 - start) / 1000) ((now2 - start) / 1000) 0 0
    (min W (manifest.segments.getD []).length) r1 r2 hediv h1x h2x
  have hne1 : r1.window ≠ [] := shuffleLoop_ok_result_ne _ _ _ _ h1
  have hne2 : r2.window ≠ [] := shuffleLoop_ok_result_ne _ _ _ _ h2
  have e1 := generateVariantP_emits { manifest with segments := some r1.window }
    r1.mediaSequence r1.discontinuitySequence (by simpa using hne1)
  have e2 := generateVariantP_emits { manifest with segments := some r2.window }
    r2.mediaSequence r2.discontinuitySequence (by simpa using hne2)
  exact ⟨hmono.1, hmono.2, e1.1, e1.2, e2.1, e2.2⟩

/-- Witness for claim C2 at a concrete input: the two-segment source at
    now = start and fifteen seconds later. -/
theorem claim2_witness : monotoneEmitted pAB stExA stExB :=
  claim2_monotone pAB 0 0 15000 3 5 5 stExA stExB (by with_unfolding_all decide)
    (by norm_num) (by with_unfolding_all decide) (by with_unfolding_all decide)

/-- Claim C9, counterexample: with window size zero the loop reads the
    head of an empty window and crashes with a TypeError instead of
    returning, for the canonical fuel and every fuel, even on a source
    with strictly positive durations. -/
theorem claim9_counterexample :
    shuffleVariantRun vodAB 0 0 0 = .crash ∧ shuffleZeroWindowCrashes := by
  constructor
  · with_unfolding_all decide
  · intro fuel
    exact shuffleLoop_crash_of_empty vodAB fuel _ (by with_unfolding_all decide)

/-- Claim C9 (amended): for every nonempty source with strictly positive
    durations and window size at least one, the sliding loop terminates
    normally for some fuel, each iteration decreases elapsed by exactly
    the removed head duration, and strictly when that duration is
    positive. -/
theorem claim9_amended (vod : List MediaSegment) (start now : ℚ) (W : ℕ)
    (hne : vod ≠ []) (hpos : ∀ s ∈ vod, 0 < s.duration) (hW : 1 ≤ W) :
    shuffleTotalSpec vod start now W := by
  refine ⟨shuffleVariantRun_ok vod start now W hne hpos hW, ?_, ?_⟩
  · intro st h t hw
    simp [shuffleStep, hw]
  · intro st h t hw hdpos
    have heq : (shuffleStep vod st).elapsed = st.elapsed - h.duration := by
      simp [shuffleStep, hw]
    rw [heq]
    linarith

/-- Witness for the amended claim C9 at a concrete input. -/
theorem claim9_witness : shuffleTotalSpec vodAB 0 15000 3 :=
  claim9_amended vodAB 0 15000 3 (by decide) (by with_unfolding_all decide) (by decide)

/-- Claim C3: a VOD variant request without a duration hands the cached
    playlist itself to generateVODVariant, which mutates it in place: the
    cache entry afterwards carries the three VOD finalization tags it did
    not have at insertion.  The fit path, by contrast, clones first and
    leaves the cache entry unchanged. -/
theorem claim3_cache_mutation :
    (makeVODVariantFromCache cacheP none 0).2 ≠ cacheP ∧
    (makeVODVariantFromCache cacheP none 0).2.tags.map Tag.rawLine =
      ["#EXT-X-TARGETDURATION:10", "#EXT-X-PLAYLIST-TYPE:VOD", "#EXT-X-ENDLIST"] ∧
    cacheP.tags = [] ∧
    (makeVODVariantFromCache cacheP (some 35) 5).2 = cacheP := by
  refine ⟨by with_unfolding_all decide, by with_unfolding_all decide, rfl,
    by with_unfolding_all decide⟩

/-- Claim C4, counterexample: at target duration zero (a falsy JS value)
    fitVariant passes the playlist through unchanged, so a two-by-ten
    source emits twenty seconds, violating the claimed strict upper bound
    of zero plus the maximum segment duration. -/
theorem claim4_counterexample :
    fitVariantP pAB (some 0) 0 = some (generateVODVariantP pAB) ∧
    totalDuration ((generateVODVariantP pAB).segments.getD []) = 20 ∧
    maxDuration (pAB.segments.getD []) = 10 ∧
    ¬(totalDuration ((generateVODVariantP pAB).segments.getD [])
        < 0 + maxDuration (pAB.segments.getD [])) := by
  refine ⟨by with_unfolding_all decide, by with_unfolding_all decide,
    by with_unfolding_all decide, by with_unfolding_all decide⟩

/-- Claim C4 (amended): for every media playlist with at least one
    segment, all durations strictly positive, and every strictly positive
    target duration D, the fit completes for some fuel and every completed
    fit has total duration at least D and strictly below D plus the
    maximum source segment duration. -/
theorem claim4_amended (manifest : M3U8Playlist) (D : ℚ)
    (hne : manifest.segments.getD [] ≠ [])
    (hpos : ∀ s ∈ manifest.segments.getD [], 0 < s.duration)
    (hD : 0 < D) : fitBoundsSpec manifest D := by
  have hguard : ¬(((manifest.segments.getD []).isEmpty) ∨ ((some D).getD 0 = 0)) := by
    push_neg
    constructor
    · simpa [List.isEmpty_iff] using hne
    · simpa using ne_of_gt hD
  constructor
  · have hm : 0 < minDuration (manifest.segments.getD []) :=
      minDuration_pos _ hpos hne
    have hfe : D ≤ 0 + minDuration (manifest.segments.getD [])
        * ((⌈D / minDuration (manifest.segments.getD [])⌉).toNat : ℕ) := by
      set m := minDuration (manifest.segments.getD []) with hmdef
      have hdiv : D / m ≤ ((⌈D / m⌉ : ℤ) : ℚ) := Int.le_ceil _
      have hcn : (0:ℤ) ≤ ⌈D / m⌉ := Int.ceil_nonneg (div_nonneg hD.le hm.le)
      have htn : (((⌈D / m⌉).toNat : ℤ) : ℚ) = ((⌈D / m⌉ : ℤ) : ℚ) := by
        exact_mod_cast congrArg (fun z : ℤ => (z : ℚ)) (Int.toNat_of_nonneg hcn)
      have hmul : D ≤ ((⌈D / m⌉ : ℤ) : ℚ) * m := (div_le_iff₀ hm).mp hdiv
      push_cast at htn ⊢
      nlinarith
    obtain ⟨res, hres⟩ := fitLoop_terminates (manifest.segments.getD []) D
      (minDuration (manifest.segments.getD [])) hm (minDuration_le _) hne
      ((⌈D / minDuration (manifest.segments.getD [])⌉).toNat) 0 [] 0 hfe
    obtain ⟨built, a⟩ := res
    refine ⟨(⌈D / minDuration (manifest.segments.getD [])⌉).toNat,
      generateVODVariantP { manifest with segments := some built }, ?_⟩
    unfold fitVariantP
    rw [if_neg hguard]
    rw [show ((some D).getD 0 : ℚ) = D from rfl, hres]
  · intro fuel out hout
    unfold fitVariantP at hout
    rw [if_neg hguard] at hout
    cases hfit : fitLoop (manifest.segments.getD []) ((some D).getD 0) fuel 0 [] 0 with
    | none => rw [hfit] at hout; exact absurd hout (by simp)
    | some res =>
      obtain ⟨built, a⟩ := res
      rw [hfit] at hout
      simp only [Option.some.injEq] at hout
      subst hout
      have hDd : ((some D).getD 0) = D := rfl
      rw [hDd] at hfit
      have hsum : a = totalDuration built :=
        fitLoop_sum _ D fuel 0 [] 0 built a hfit (by simp [totalDuration])
      have hb := fitLoop_bounds (manifest.segments.getD []) D
        (maxDuration (manifest.segments.getD [])) (maxDuration_ge _) hne
        fuel 0 [] 0 built a hfit
      have h2 := hb.2 hD
      have hsegs : (generateVODVariantP { manifest with segments := some built }).segments
          = some built := by
        rw [generateVODVariantP_segments]
      rw [hsegs]
      simp only [Option.getD_some]
      rw [← hsum]
      exact h2

/-- Witness for the amended claim C4 at a concrete input. -/
theorem claim4_witness : fitBoundsSpec pAB 35 :=
  claim4_amended pAB 35 (by decide) (by with_unfolding_all decide) (by norm_num)

/-- Claim C5: on six ten-second segments with startOffset 0 and the
    interval ad config of duration 15 every 30 seconds, the injector
    prepends CUE-OUT:15 at index 3, CUE-OUT-CONT:10.0/15 at index 4 and
    CUE-IN at index 5, touching no other segment; and in interval mode
    with a positive interval every break start is a positive multiple of
    the interval, never zero. -/
theorem claim5_interval_scenario :
    injectAdBreaks adSegs6 adCfg 0 =
      some [adSeg 0, adSeg 1, adSeg 2,
        { adSeg 3 with tags := cueOutTag :: (adSeg 3).tags },
        { adSeg 4 with tags := cueContTag :: (adSeg 4).tags },
        { adSeg 5 with tags := cueInTag :: (adSeg 5).tags }] ∧
    (∀ (config : AdConfig) (iv ws we : ℚ) (l : List ℚ),
      config.mode = .interval → config.interval = some iv → 0 < iv →
      getAdBreakStarts config ws we = some l →
      ∀ x ∈ l, (∃ k : ℕ, 1 ≤ k ∧ x = k * iv) ∧ x ≠ 0) := by
  constructor
  · with_unfolding_all decide
  · intro config iv ws we l hmode hiv hivpos h x hx
    unfold getAdBreakStarts at h
    rw [hmode] at h
    simp only [hiv] at h
    obtain ⟨k, hk⟩ := intervalStarts_mem ws we config.duration iv _ iv l h x hx
    constructor
    · refine ⟨k + 1, by omega, ?_⟩
      rw [hk]
      push_cast
      ring
    · rw [hk]
      have hkc : (0:ℚ) ≤ (k : ℚ) := Nat.cast_nonneg k
      have : 0 < iv + (k : ℚ) * iv := by nlinarith
      exact ne_of_gt this

/-- Witness for the general interval-mode part of claim C5 at a concrete
    input. -/
theorem claim5_witness :
    getAdBreakStarts adCfg 0 60 = some [30] ∧
    ((∃ k : ℕ, 1 ≤ k ∧ (30:ℚ) = k * 30) ∧ (30:ℚ) ≠ 0) :=
  ⟨by with_unfolding_all decide,
   claim5_interval_scenario.2 adCfg 30 0 60 [30] rfl rfl (by norm_num)
     (by with_unfolding_all decide) 30 (by simp)⟩

/-- Claim C7: on a source playlist with zero segments the live windower
    does not return the empty playlist with live tags; it crashes reading
    the duration of the undefined head segment, for the canonical fuel
    and for every fuel. -/
theorem claim7_empty_crash :
    shuffleVariantPCanon emptyMediaP 0 0 3 = none ∧
    shuffleVariantRun ([] : List MediaSegment) 0 0 3 = .crash ∧
    shuffleEmptyCrashes := by
  refine ⟨by with_unfolding_all decide, by with_unfolding_all decide, ?_⟩
  intro fuel
  exact shuffleLoop_crash_of_empty [] fuel _ (by with_unfolding_all decide)

/-- Claim C10: the injector never changes the number, order, durations,
    URIs, discontinuity flags or existing tags of the segments; a
    completed call only prepends at most one cue tag per segment, and an
    empty segment list or an empty break list leaves the segments exactly
    unchanged. -/
theorem claim10_frame (segments : List MediaSegment) (config : AdConfig) (startOffset : ℚ) :
    injectFrameSpec segments config startOffset := by
  refine ⟨?_, ?_, ?_⟩
  · intro out hout
    simp only [injectAdBreaks] at hout
    by_cases hemp : segments.isEmpty
    · rw [if_pos hemp] at hout
      simp only [Option.some.injEq] at hout
      subst hout
      exact List.forall₂_same.mpr (fun s _ => ⟨rfl, Or.inl rfl⟩)
    · rw [if_neg hemp] at hout
      cases hstarts : getAdBreakStarts config startOffset (startOffset + totalDuration segments) with
      | none => rw [hstarts] at hout; exact absurd hout (by simp)
      | some starts =>
        rw [hstarts] at hout
        dsimp only at hout
        by_cases hs : starts.isEmpty
        · rw [if_pos hs] at hout
          simp only [Option.some.injEq] at hout
          subst hout
          exact List.forall₂_same.mpr (fun s _ => ⟨rfl, Or.inl rfl⟩)
        · rw [if_neg hs] at hout
          simp only [Option.some.injEq] at hout
          subst hout
          exact adWalk_frame starts config.duration segments startOffset false
  · intro h
    subst h
    rfl
  · intro h
    simp only [injectAdBreaks]
    by_cases hemp : segments.isEmpty
    · rw [if_pos hemp]
    · rw [if_neg hemp, h]
      rfl

/-- Witness for claim C10: a window no ad break intersects is returned
    unchanged. -/
theorem claim10_witness :
    injectAdBreaks [tenSeg ("w")] tsCfgFar 0 = some [tenSeg ("w")] :=
  (claim10_frame [tenSeg ("w")] tsCfgFar 0).2.2 (by with_unfolding_all decide)

/-- Claim C8, counterexample: a VOD master request carrying an ad
    parameter rewrites the variant URI without any ad parameter in the
    query string -- the route handlers never read it. -/
theorem claim8_counterexample :
    ((vodMasterResponse masterV0 (some ("test")) (some 35)
        (some ("interval,15,30"))).variants.getD []).map Variant.uri = [vodAdFreeURI] ∧
    hasSub ("ad=").data vodAdFreeURI.data = false := by
  refine ⟨by with_unfolding_all decide, by decide⟩

/-- Claim C8 (amended): every rewritten variant URI and URI-bearing
    EXT-X-MEDIA URI has the form /<mode>.m3u8?query, the query carries the
    variant index, the stream parameter when present and nonempty, the
    start timestamp when nonzero (live passes start, VOD passes zero) and
    the duration when present and nonzero; no query parameter is ever
    named ad. -/
theorem claim8_amended (mode : String) (stream : Option String) (manifest : M3U8Playlist)
    (start : ℚ) (duration : Option ℚ) :
    masterRewriteSpec mode stream manifest start duration := by
  have hvars : ∀ (vs : List Variant) (i : ℕ),
      List.Forall₂ (fun v v2 => ∃ j, v2 = { v with uri := variantURI mode j stream start duration })
        vs (rewriteVariants mode stream start duration vs i) := by
    intro vs
    induction vs with
    | nil => intro i; exact List.Forall₂.nil
    | cons v rest ih => intro i; exact List.Forall₂.cons ⟨i, rfl⟩ (ih (i + 1))
  have htags : ∀ (ts : List Tag) (i : ℕ),
      List.Forall₂ (fun t t2 =>
        (¬mediaTagWithURI t → t2 = t) ∧
        (mediaTagWithURI t →
          ∃ j, t2 = updateTagAttribute t ("URI") (variantURI mode j stream start duration)))
        ts (rewriteMediaTags mode stream start duration ts i) := by
    intro ts
    induction ts with
    | nil => intro i; exact List.Forall₂.nil
    | cons t rest ih =>
      intro i
      show List.Forall₂ _ (t :: rest) (rewriteMediaTags mode stream start duration (t :: rest) i)
      unfold rewriteMediaTags
      by_cases hcond : t.name = "EXT-X-MEDIA" ∧ (attrTruthy (t.attributes.getD []) ("URI")).isSome
      · rw [if_pos hcond]
        exact List.Forall₂.cons
          ⟨fun hno => absurd hcond hno, fun _ => ⟨i, rfl⟩⟩ (ih (i + 1))
      · rw [if_neg hcond]
        exact List.Forall₂.cons
          ⟨fun _ => rfl, fun hyes => absurd hyes hcond⟩ (ih i)
  refine ⟨?_, ?_, ?_, ?_, ?_, ?_, ?_, fun i => rfl⟩
  · cases hv : manifest.variants with
    | none => simp [generateMasterP, hv]
    | some vs =>
      have : (generateMasterP mode stream manifest start duration).variants
          = some (rewriteVariants mode stream start duration vs 0) := by
        simp [generateMasterP, hv]
      rw [this]
      simp only [Option.getD_some]
      exact hvars vs 0
  · have : (generateMasterP mode stream manifest start duration).tags
        = rewriteMediaTags mode stream start duration manifest.tags
            ((manifest.variants.getD []).length) := by
      simp [generateMasterP]
    rw [this]
    exact htags manifest.tags _
  · intro i
    simp [buildVariantQueryParams]
  · intro i s hs hsne
    subst hs
    simp [buildVariantQueryParams, hsne]
  · intro i hstart
    simp [buildVariantQueryParams, hstart]
  · intro i d hd hdne
    subst hd
    simp [buildVariantQueryParams, hdne]
  · intro i kv hkv
    simp only [buildVariantQueryParams, List.append_assoc, List.mem_append,
      List.mem_singleton] at hkv
    rcases hkv with h | h | h | h
    · rw [h]
      exact (by decide : ("variant":String) ≠ ("ad"))
    · cases hs : stream with
      | none => rw [hs] at h; exact absurd h (by simp)
      | some s =>
        rw [hs] at h
        dsimp only at h
        by_cases hse : s = ""
        · rw [if_pos hse] at h
          exact absurd h (by simp)
        · rw [if_neg hse] at h
          have : kv = ("stream", s) := by simpa using h
          rw [this]
          exact (by decide : ("stream":String) ≠ ("ad"))
    · by_cases hst : start = 0
      · rw [if_pos hst] at h
        exact absurd h (by simp)
      · rw [if_neg hst] at h
        have : kv = ("start", jsNumToString start) := by simpa using h
        rw [this]
        exact (by decide : ("start":String) ≠ ("ad"))
    · cases hd : duration with
      | none => rw [hd] at h; exact absurd h (by simp)
      | some d =>
        rw [hd] at h
        dsimp only at h
        by_cases hde : d = 0
        · rw [if_pos hde] at h
          exact absurd h (by simp)
        · rw [if_neg hde] at h
          have : kv = ("duration", jsNumToString d) := by simpa using h
          rw [this]
          exact (by decide : ("duration":String) ≠ ("ad"))

/-- Witness for the amended claim C8 at a concrete input. -/
theorem claim8_witness : masterRewriteSpec ("vod") (some ("test")) masterV0 0 (some 35) :=
  claim8_amended ("vod") (some ("test")) masterV0 0 (some 35)

/-! # Round trip, stage 1: trimming, splitting and tag-name facts -/

theorem dropWhile_head_false (p : Char → Bool) :
    ∀ (l : Line) (c : Char), (l.dropWhile p).head? = some c → p c = false := by
  intro l
  induction l with
  | nil => intro c h; exact absurd h (by simp)
  | cons x rest ih =>
    intro c h
    by_cases hp : p x
    · rw [List.dropWhile_cons_of_pos hp] at h
      exact ih c h
    · rw [List.dropWhile_cons_of_neg hp] at h
      simp only [List.head?_cons, Option.some.injEq] at h
      subst h
      exact Bool.of_not_eq_true hp

theorem dropWhile_eq_self_of_head (p : Char → Bool) (l : Line)
    (h : ∀ c, l.head? = some c → p c = false) : l.dropWhile p = l := by
  cases l with
  | nil => rfl
  | cons x rest =>
    rw [List.dropWhile_cons_of_neg]
    rw [h x (by simp)]
    simp

theorem suffix_getLast? {xs ys : Line} (h : xs <:+ ys) (hne : xs ≠ []) :
    xs.getLast? = ys.getLast? := by
  obtain ⟨t, rfl⟩ := h
  rw [List.getLast?_append_of_ne_nil _ hne]

theorem jsTrim_idem (l : Line) : jsTrim (jsTrim l) = jsTrim l := by
  set p := isJsSpace
  set y := l.dropWhile p with hy
  set x := (y.reverse.dropWhile p).reverse with hx
  show jsTrim x = x
  by_cases hz : y.reverse.dropWhile p = []
  · rw [hx, hz]
    rfl
  · have hxhead : ∀ c, x.head? = some c → p c = false := by
      intro c hc
      rw [hx, List.head?_reverse] at hc
      have h1 : (y.reverse.dropWhile p).getLast? = y.reverse.getLast? :=
        suffix_getLast? (List.dropWhile_suffix p) hz
      rw [h1, List.getLast?_reverse] at hc
      exact dropWhile_head_false p l c hc
    have hc1 : x.dropWhile p = x := dropWhile_eq_self_of_head p x hxhead
    have hc2 : x.reverse.dropWhile p = x.reverse := by
      apply dropWhile_eq_self_of_head
      intro c hc
      rw [hx, List.reverse_reverse] at hc
      exact dropWhile_head_false p y.reverse c hc
    show ((x.dropWhile p).reverse.dropWhile p).reverse = x
    rw [hc1, hc2, List.reverse_reverse]

theorem jsTrim_length_lt_of_last_space (l : Line) (c : Char) (hne : l ≠ [])
    (hlast : l.getLast? = some c) (hsp : isJsSpace c = true) :
    (jsTrim l).length < l.length := by
  set p := isJsSpace
  set y := l.dropWhile p with hy
  by_cases hyne : y = []
  · show ((y.reverse.dropWhile p).reverse).length < l.length
    rw [hyne]
    simp only [List.reverse_nil, List.dropWhile_nil, List.length_nil]
    exact List.length_pos.mpr hne
  · have hylast : y.getLast? = some c := by
      rw [suffix_getLast? (List.dropWhile_suffix p) hyne, hlast]
    have hyrev : y.reverse.head? = some c := by
      rw [List.head?_reverse, hylast]
    obtain ⟨t, ht⟩ : ∃ t, y.reverse = c :: t := by
      cases hyr : y.reverse with
      | nil => rw [hyr] at hyrev; exact absurd hyrev (by simp)
      | cons a t =>
        rw [hyr] at hyrev
        simp only [List.head?_cons, Option.some.injEq] at hyrev
        exact ⟨t, by rw [hyrev]⟩
    have hdrop : y.reverse.dropWhile p = t.dropWhile p := by
      rw [ht, List.dropWhile_cons_of_pos hsp]
    have hlen : (jsTrim l).length ≤ t.length := by
      show ((y.reverse.dropWhile p).reverse).length ≤ t.length
      rw [List.length_reverse, hdrop]
      exact (List.dropWhile_suffix p).length_le
    have hty : t.length + 1 = y.length := by
      have := congrArg List.length ht
      simp only [List.length_reverse, List.length_cons] at this
      omega
    have hyl : y.length ≤ l.length := (List.dropWhile_suffix p).length_le
    omega

theorem trimmed_getLast_ne_cr (l : Line) (h : jsTrim l = l) :
    l.getLast? ≠ some '\r' := by
  intro hlast
  have hne : l ≠ [] := by
    intro hnil
    rw [hnil] at hlast
    exact absurd hlast (by simp)
  have := jsTrim_length_lt_of_last_space l '\r' hne hlast (by decide)
  rw [h] at this
  omega

theorem jsTrim_clean (l : Line) (h : CleanLine l) : CleanLine (jsTrim l) := by
  intro hmem
  apply h
  have h1 : '\n' ∈ (l.dropWhile isJsSpace).reverse.dropWhile isJsSpace := by
    have := List.mem_reverse.mp hmem
    exact this
  have h2 : '\n' ∈ (l.dropWhile isJsSpace).reverse :=
    (List.dropWhile_suffix isJsSpace).subset h1
  have h3 : '\n' ∈ l.dropWhile isJsSpace := List.mem_reverse.mp h2
  exact (List.dropWhile_suffix isJsSpace).subset h3

theorem parseTagOfLine_rawLine (l : Line) : (parseTagOfLine l).rawLine = String.mk l := by
  unfold parseTagOfLine
  cases h : indexOfChar ':' l with
  | none => rfl
  | some ci =>
    by_cases ha : hasAttributes (l.drop (ci + 1))
    · simp [ha]
    · simp [ha]

theorem parseTag_good (l : Line) (hne : l ≠ []) (hhead : l.head? = some '#')
    (htrim : jsTrim l = l) (hclean : CleanLine l) : GoodTag (parseTagOfLine l) := by
  have hraw : (parseTagOfLine l).rawLine = String.mk l := parseTagOfLine_rawLine l
  have hdata : (parseTagOfLine l).rawLine.data = l := by rw [hraw]
  refine ⟨by rw [hdata]; exact hne, by rw [hdata]; exact hhead,
    by rw [hdata]; exact htrim, by rw [hdata]; exact hclean, by rw [hdata]⟩

theorem bufferable_name_facts (n : String) (h : bufferableTagName n = true) :
    n ∈ PlaylistNameBad ∧ PostNameOk n ∧ n ≠ "EXT-X-VERSION" ∧
    n ≠ "EXT-X-INDEPENDENT-SEGMENTS" ∧ n ≠ "EXT-X-STREAM-INF" ∧
    n ≠ "EXTINF" ∧ n ≠ "EXT-X-MEDIA" := by
  simp only [bufferableTagName, List.mem_cons, List.mem_singleton,
    decide_eq_true_eq, List.not_mem_nil, or_false] at h
  rcases h with rfl | rfl | rfl | rfl | rfl | rfl <;>
    exact ⟨by decide, by unfold PostNameOk; decide, by decide, by decide, by decide,
      by decide, by decide⟩

theorem segLevel_bufferable (n : String) (h : isSegmentLevelTag n = true) :
    bufferableTagName n = true := by
  simp only [isSegmentLevelTag, List.mem_cons, List.mem_singleton,
    decide_eq_true_eq, List.not_mem_nil, or_false] at h
  rcases h with rfl | rfl | rfl | rfl <;> decide

theorem mTag_name_facts (n : String) (h1 : n ∉ PlaylistNameBad) :
    bufferableTagName n = false ∧ isSegmentLevelTag n = false ∧
    isVariantLevelTag n = false ∧ n ≠ "EXTINF" ∧ n ≠ "EXT-X-STREAM-INF" := by
  refine ⟨?_, ?_, ?_, ?_, ?_⟩
  · cases hb : bufferableTagName n
    · rfl
    · exact absurd (bufferable_name_facts n hb).1 h1
  · cases hb : isSegmentLevelTag n
    · rfl
    · exact absurd (bufferable_name_facts n (segLevel_bufferable n hb)).1 h1
  · cases hb : isVariantLevelTag n
    · rfl
    · simp only [isVariantLevelTag, List.mem_singleton, decide_eq_true_eq] at hb
      refine absurd ?_ h1
      rw [show n = "EXT-X-I-FRAME-STREAM-INF" by simpa using hb]
      decide
  · intro hn
    refine absurd ?_ h1
    rw [hn]
    decide
  · intro hn
    refine absurd ?_ h1
    rw [hn]
    decide

theorem replayPost_snoc (post : List Tag) (t : Tag) (s : MediaSegment) :
    replayPost (post ++ [t]) s = segApplyTag (replayPost post s) t := by
  unfold replayPost
  rw [List.foldl_append]
  rfl

/-! # Round trip, stage 2: the line splitter and joiner -/

theorem splitLines_lf (rest : Line) :
    splitLinesJS ('\n' :: rest) = [] :: splitLinesJS rest := rfl

theorem splitLines_crlf (rest : Line) :
    splitLinesJS ('\r' :: '\n' :: rest) = [] :: splitLinesJS rest := rfl

theorem splitLines_other (c : Char) (rest : Line) (h1 : c ≠ '\n')
    (h2 : ¬(c = '\r' ∧ rest.head? = some '\n')) :
    splitLinesJS (c :: rest) =
      match splitLinesJS rest with
      | h :: t => (c :: h) :: t
      | [] => [[c]] := by
  rw [splitLinesJS.eq_def]
  split
  next heq => exact absurd heq (by simp)
  next r2 heq =>
    rw [List.cons.injEq] at heq
    exact absurd ⟨heq.1, by rw [heq.2]; rfl⟩ h2
  next r2 heq =>
    rw [List.cons.injEq] at heq
    exact absurd heq.1 h1
  next c2 r2 hne1 hne2 heq =>
    rw [List.cons.injEq] at heq
    rw [heq.1, heq.2]

theorem splitLinesJS_clean_aux : ∀ (n : ℕ) (cs : Line), cs.length ≤ n →
    ∀ l ∈ splitLinesJS cs, CleanLine l := by
  intro n
  induction n with
  | zero =>
    intro cs hle l hl
    have hnil : cs = [] := List.eq_nil_of_length_eq_zero (Nat.le_zero.mp hle)
    subst hnil
    rw [show splitLinesJS [] = [[]] from rfl, List.mem_singleton] at hl
    subst hl
    intro hmem
    exact absurd hmem (List.not_mem_nil _)
  | succ k ih =>
    intro cs hle l hl
    cases cs with
    | nil =>
      rw [show splitLinesJS [] = [[]] from rfl, List.mem_singleton] at hl
      subst hl
      intro hmem
      exact absurd hmem (List.not_mem_nil _)
    | cons c rest =>
      by_cases hc : c = '\n'
      · subst hc
        rw [splitLines_lf] at hl
        rcases List.mem_cons.mp hl with rfl | hmem
        · intro hm; exact absurd hm (List.not_mem_nil _)
        · exact ih rest (by simp only [List.length_cons] at hle; omega) l hmem
      · by_cases hcr : c = '\r' ∧ rest.head? = some '\n'
        · obtain ⟨rfl, hrh⟩ := hcr
          obtain ⟨rest2, rfl⟩ : ∃ rest2, rest = '\n' :: rest2 := by
            cases rest with
            | nil => exact absurd hrh (by simp)
            | cons d t =>
              simp only [List.head?_cons, Option.some.injEq] at hrh
              exact ⟨t, by rw [hrh]⟩
          rw [splitLines_crlf] at hl
          rcases List.mem_cons.mp hl with rfl | hmem
          · intro hm; exact absurd hm (List.not_mem_nil _)
          · exact ih rest2 (by simp only [List.length_cons] at hle; omega) l hmem
        · rw [splitLines_other c rest hc hcr] at hl
          cases hsp : splitLinesJS rest with
          | nil =>
            rw [hsp] at hl
            rw [List.mem_singleton] at hl
            subst hl
            intro hm
            rw [List.mem_singleton] at hm
            exact hc hm.symm
          | cons h0 t0 =>
            rw [hsp] at hl
            rcases List.mem_cons.mp hl with rfl | hmem
            · intro hm
              rcases List.mem_cons.mp hm with heq2 | hmem2
              · exact hc heq2.symm
              · exact ih rest (by simp only [List.length_cons] at hle; omega) h0
                  (by rw [hsp]; exact List.mem_cons_self _ _) hmem2
            · exact ih rest (by simp only [List.length_cons] at hle; omega) l
                (by rw [hsp]; exact List.mem_cons_of_mem _ hmem)

theorem splitLinesJS_clean (cs : Line) : ∀ l ∈ splitLinesJS cs, CleanLine l :=
  splitLinesJS_clean_aux cs.length cs le_rfl

theorem splitLinesJS_append (l : Line) (k : Line) : CleanLine l →
    l.getLast? ≠ some '\r' →
    splitLinesJS (l ++ '\n' :: k) = l :: splitLinesJS k := by
  induction l with
  | nil => intro _ _; exact splitLines_lf k
  | cons c l2 ih =>
    intro hclean hcr
    have hc : c ≠ '\n' := fun hh => hclean (by rw [hh]; exact List.mem_cons_self _ _)
    have hclean2 : CleanLine l2 := fun hm => hclean (List.mem_cons_of_mem c hm)
    cases l2 with
    | nil =>
      have hcr2 : c ≠ '\r' := fun hh => hcr (by rw [hh]; rfl)
      rw [List.cons_append, List.nil_append,
        splitLines_other c ('\n' :: k) hc (fun hand => hcr2 hand.1), splitLines_lf k]
    | cons d l3 =>
      have hd : d ≠ '\n' := fun hh =>
        hclean (by rw [hh]; exact List.mem_cons_of_mem c (List.mem_cons_self _ _))
      have hcr2 : (d :: l3).getLast? ≠ some '\r' := by
        rw [← List.getLast?_cons_cons]
        exact hcr
      have hrec := ih hclean2 hcr2
      simp only [List.cons_append] at hrec ⊢
      have hside : ¬(c = '\r' ∧ (d :: (l3 ++ '\n' :: k)).head? = some '\n') := by
        rintro ⟨-, hh⟩
        rw [List.head?_cons] at hh
        exact hd (Option.some.inj hh)
      rw [splitLines_other c (d :: (l3 ++ '\n' :: k)) hc hside, hrec]

theorem splitLinesJS_single (l : Line) : CleanLine l → splitLinesJS l = [l] := by
  induction l with
  | nil => intro _; rfl
  | cons c rest ih =>
    intro hclean
    have hc : c ≠ '\n' := fun hh => hclean (by rw [hh]; exact List.mem_cons_self _ _)
    have hrest : CleanLine rest := fun hm => hclean (List.mem_cons_of_mem c hm)
    have hside : ¬(c = '\r' ∧ rest.head? = some '\n') := by
      rintro ⟨-, hh⟩
      cases rest with
      | nil => exact absurd hh (by simp)
      | cons d t =>
        rw [List.head?_cons] at hh
        exact hrest (by rw [Option.some.inj hh]; exact List.mem_cons_self _ _)
    rw [splitLines_other c rest hc hside, ih hrest]

theorem splitLinesJS_joinLines : ∀ (ls : List Line),
    (∀ l ∈ ls, CleanLine l ∧ l.getLast? ≠ some '\r') → ls ≠ [] →
    splitLinesJS (joinLinesJS ls) = ls := by
  intro ls
  induction ls with
  | nil => intro _ hne; exact absurd rfl hne
  | cons l rest ih =>
    intro h _
    cases rest with
    | nil => exact splitLinesJS_single l (h l (List.mem_cons_self _ _)).1
    | cons l2 rest2 =>
      show splitLinesJS (l ++ '\n' :: joinLinesJS (l2 :: rest2)) = l :: (l2 :: rest2)
      rw [splitLinesJS_append l _ (h l (List.mem_cons_self _ _)).1
        (h l (List.mem_cons_self _ _)).2,
        ih (fun x hx => h x (List.mem_cons_of_mem l hx)) (by simp)]

theorem notEmpty_pred (l : Line) (h : l ≠ []) : (!l.isEmpty) = true := by
  cases l with
  | nil => exact absurd rfl h
  | cons c rest => rfl

/-! # Round trip, stage 3: the parser-state invariant -/

theorem PTagOk_to_master (ty : PlaylistKind) (t : Tag) (h : PTagOk ty t) :
    PTagOk .master t :=
  ⟨h.1, h.2.1, fun _ => rfl⟩

theorem postNameOk_of_ne (n : String)
    (h1 : n ≠ "EXT-X-VERSION") (h2 : n ≠ "EXT-X-INDEPENDENT-SEGMENTS")
    (h3 : n ≠ "EXT-X-STREAM-INF") (h4 : n ≠ "EXTINF") (h5 : n ≠ "EXT-X-MEDIA") :
    PostNameOk n := by
  intro hmem
  simp only [List.mem_cons, List.mem_singleton, List.not_mem_nil, or_false] at hmem
  rcases hmem with rfl | rfl | rfl | rfl | rfl
  exacts [h1 rfl, h2 rfl, h3 rfl, h4 rfl, h5 rfl]

theorem notPlaylistBad_of (n : String) (h3 : n ≠ "EXT-X-STREAM-INF") (h4 : n ≠ "EXTINF")
    (hb : bufferableTagName n = false) (hv : isVariantLevelTag n = false) :
    n ∉ PlaylistNameBad := by
  intro hmem
  unfold PlaylistNameBad at hmem
  simp only [List.mem_cons, List.mem_singleton, List.not_mem_nil, or_false] at hmem
  rcases hmem with rfl | rfl | rfl | rfl | rfl | rfl | rfl | rfl | rfl
  · exact h4 rfl
  · exact h3 rfl
  · exact absurd hb (by decide)
  · exact absurd hb (by decide)
  · exact absurd hb (by decide)
  · exact absurd hb (by decide)
  · exact absurd hb (by decide)
  · exact absurd hb (by decide)
  · exact absurd hv (by decide)

/-- One tag-dispatch step preserves the parser-state invariant. -/
theorem procTag_inv (st : ParseState) (tag : Tag) (hg : GoodTag tag) (hinv : StInv st) :
    StInv (procTag st tag) := by
  obtain ⟨hT, hS, hSne, hO, hB, hV, hCV⟩ := hinv
  unfold procTag
  by_cases h1 : tag.name = "EXT-X-VERSION"
  · rw [if_pos h1]
    refine ⟨?_, hS, hSne, hO, hB, hV, hCV⟩
    intro t ht
    rcases List.mem_append.mp ht with hmem | hmem
    · exact hT t hmem
    · rw [List.mem_singleton] at hmem
      subst hmem
      refine ⟨hg, by rw [h1]; decide, fun hm => ?_⟩
      rw [h1] at hm
      exact absurd hm (by decide)
  rw [if_neg h1]
  by_cases h2 : tag.name = "EXT-X-INDEPENDENT-SEGMENTS"
  · rw [if_pos h2]
    refine ⟨?_, hS, hSne, hO, hB, hV, hCV⟩
    intro t ht
    rcases List.mem_append.mp ht with hmem | hmem
    · exact hT t hmem
    · rw [List.mem_singleton] at hmem
      subst hmem
      refine ⟨hg, by rw [h2]; decide, fun hm => ?_⟩
      rw [h2] at hm
      exact absurd hm (by decide)
  rw [if_neg h2]
  by_cases h3 : tag.name = "EXT-X-STREAM-INF"
  · rw [if_pos h3]
    refine ⟨?_, hS, hSne, hO, hB, fun _ => rfl, fun _ => rfl⟩
    intro t ht
    exact PTagOk_to_master _ t (hT t ht)
  rw [if_neg h3]
  by_cases h4 : tag.name = "EXTINF"
  · rw [if_pos h4]
    refine ⟨hT, hS, hSne, ?_, ?_⟩
    · intro cs hcs
      rw [Option.some.injEq] at hcs
      subst hcs
      exact ⟨st.segmentTags, tag, [], hB, hg, h4, by simp, rfl⟩
    · exact ⟨fun t ht => absurd ht (List.not_mem_nil t), hV, hCV⟩
  rw [if_neg h4]
  by_cases h5 : bufferableTagName tag.name = true
  · rw [if_pos h5]
    obtain ⟨hbad, hpostok, -, -, -, -, -⟩ := bufferable_name_facts tag.name h5
    cases hcs : st.currentSegment with
    | some s =>
      dsimp only
      refine ⟨hT, hS, hSne, ?_, hB, hV, hCV⟩
      intro cs hcseq
      rw [Option.some.injEq] at hcseq
      subst hcseq
      obtain ⟨pre, e, post, hpre, he, hen, hpost2, heq⟩ := hO s hcs
      refine ⟨pre, e, post ++ [tag], hpre, he, hen, ?_, ?_⟩
      · intro t htm
        rcases List.mem_append.mp htm with hmm | hmm
        · exact hpost2 t hmm
        · rw [List.mem_singleton] at hmm
          subst hmm
          exact ⟨hg, hpostok⟩
      · rw [heq, replayPost_snoc]
    | none =>
      dsimp only
      refine ⟨hT, hS, hSne, fun cs hcseq => Option.noConfusion hcseq, ?_, hV, hCV⟩
      intro t ht
      rcases List.mem_append.mp ht with hmem | hmem
      · exact hB t hmem
      · rw [List.mem_singleton] at hmem
        subst hmem
        exact ⟨hg, h5⟩
  rw [if_neg h5]
  by_cases h6 : tag.name = "EXT-X-MEDIA"
  · rw [if_pos h6]
    refine ⟨?_, hS, hSne, hO, hB, fun _ => rfl, fun _ => rfl⟩
    intro t ht
    rcases List.mem_append.mp ht with hmem | hmem
    · exact PTagOk_to_master _ t (hT t hmem)
    · rw [List.mem_singleton] at hmem
      subst hmem
      refine ⟨hg, by rw [h6]; decide, fun _ => rfl⟩
  rw [if_neg h6]
  cases hcv : st.currentVariant with
  | some v =>
    dsimp only
    exact ⟨hT, hS, hSne, hO, hB, hV, fun _ => hCV (by rw [hcv]; simp)⟩
  | none =>
    cases hcs : st.currentSegment with
    | some s =>
      dsimp only
      refine ⟨hT, hS, hSne, ?_, hB, hV, fun hne => absurd rfl hne⟩
      intro cs hcseq
      rw [Option.some.injEq] at hcseq
      subst hcseq
      obtain ⟨pre, e, post, hpre, he, hen, hpost2, heq⟩ := hO s hcs
      refine ⟨pre, e, post ++ [tag], hpre, he, hen, ?_, ?_⟩
      · intro t htm
        rcases List.mem_append.mp htm with hmm | hmm
        · exact hpost2 t hmm
        · rw [List.mem_singleton] at hmm
          subst hmm
          exact ⟨hg, postNameOk_of_ne _ h1 h2 h3 h4 h6⟩
      · rw [heq, replayPost_snoc]
    | none =>
      dsimp only
      by_cases h7 : isSegmentLevelTag tag.name = true
      · exact absurd (segLevel_bufferable tag.name h7) h5
      rw [if_neg h7]
      by_cases h8 : isVariantLevelTag tag.name = true
      · rw [if_pos h8]
        exact ⟨hT, hS, hSne, fun cs h => Option.noConfusion h, hB, hV,
          fun hne => absurd rfl hne⟩
      rw [if_neg h8]
      refine ⟨?_, hS, hSne, fun cs h => Option.noConfusion h, hB, hV,
        fun hne => absurd rfl hne⟩
      intro t ht
      rcases List.mem_append.mp ht with hmem | hmem
      · exact hT t hmem
      · rw [List.mem_singleton] at hmem
        subst hmem
        refine ⟨hg, ?_, fun hm => absurd hm h6⟩
        exact notPlaylistBad_of _ h3 h4 (Bool.of_not_eq_true h5) (Bool.of_not_eq_true h8)

/-- One parser-loop iteration preserves the parser-state invariant, for
    the nonblank clean lines the loop is fed. -/
theorem parseLine_inv (st : ParseState) (raw : Line) (hclean : CleanLine raw)
    (htrim : jsTrim raw ≠ []) (hinv : StInv st) : StInv (parseLine st raw) := by
  have hidem : jsTrim (jsTrim raw) = jsTrim raw := jsTrim_idem raw
  have hcl : CleanLine (jsTrim raw) := jsTrim_clean raw hclean
  simp only [parseLine]
  by_cases hh : (jsTrim raw).head? = some '#'
  · rw [if_pos hh]
    exact procTag_inv st _ (parseTag_good (jsTrim raw) htrim hh hidem hcl) hinv
  · rw [if_neg hh]
    obtain ⟨hT, hS, hSne, hO, hB, hV, hCV⟩ := hinv
    cases hcs : st.currentSegment with
    | some seg =>
      dsimp only
      refine ⟨hT, ?_, ?_, fun cs hcseq => Option.noConfusion hcseq,
        fun t ht => absurd ht (List.not_mem_nil t), hV, hCV⟩
      · intro s hs
        rcases List.mem_append.mp hs with hmem | hmem
        · exact hS s hmem
        · rw [List.mem_singleton] at hmem
          subst hmem
          obtain ⟨pre, e, post, hpre, he, hen, hpost, heq⟩ := hO seg hcs
          refine ⟨htrim, hh, hidem, hcl, pre, e, post, hpre, he, hen, hpost, ?_⟩
          rw [heq]
      · exact Or.inr ⟨_, rfl, by simp⟩
    | none =>
      cases hcv : st.currentVariant with
      | some v =>
        dsimp only
        have hmaster : st.playlist.type = .master := hCV (by rw [hcv]; simp)
        exact ⟨hT, hS, hSne, fun cs hcseq => Option.noConfusion hcseq, hB,
          fun _ => hmaster, fun hne => absurd rfl hne⟩
      | none =>
        dsimp only
        exact ⟨hT, hS, hSne, hO, hB, hV, hCV⟩

/-- The parser fold preserves the invariant over any list of nonblank
    clean lines. -/
theorem foldl_parseLine_inv (ls : List Line) :
    ∀ st, StInv st → (∀ l ∈ ls, CleanLine l ∧ jsTrim l ≠ []) →
      StInv (ls.foldl parseLine st) := by
  induction ls with
  | nil => intro st h _; exact h
  | cons l rest ih =>
    intro st h hc
    rw [List.foldl_cons]
    exact ih _ (parseLine_inv st l (hc l (List.mem_cons_self _ _)).1
      (hc l (List.mem_cons_self _ _)).2 h) (fun x hx => hc x (List.mem_cons_of_mem _ hx))

/-- The initial parser state satisfies the invariant. -/
theorem initialParseState_inv : StInv initialParseState := by
  refine ⟨?_, ?_, Or.inl rfl, fun cs h => Option.noConfusion h,
    ?_, fun h => absurd rfl h, fun h => absurd rfl h⟩
  · intro t ht
    exact absurd ht (List.not_mem_nil t)
  · intro s hs
    exact absurd hs (List.not_mem_nil s)
  · intro t ht
    exact absurd ht (List.not_mem_nil t)

/-- Every playlist accepted by parseM3U8 is well formed. -/
theorem parseM3U8_wf (text : String) (p : M3U8Playlist)
    (h : parseM3U8 text = some p) : PlaylistWF p := by
  simp only [parseM3U8] at h
  cases hls : (splitLinesJS text.data).filter (fun l => !(jsTrim l).isEmpty) with
  | nil =>
    rw [hls] at h
    exact absurd h (by simp)
  | cons l0 rest =>
    rw [hls] at h
    dsimp only at h
    by_cases hld : leadsWith ("#EXTM3U").data l0 = true
    · rw [if_pos hld, Option.some.injEq] at h
      subst h
      have hrest : ∀ l ∈ rest, CleanLine l ∧ jsTrim l ≠ [] := by
        intro l hl
        have hmem : l ∈ (splitLinesJS text.data).filter (fun l => !(jsTrim l).isEmpty) := by
          rw [hls]
          exact List.mem_cons_of_mem _ hl
        refine ⟨splitLinesJS_clean text.data l (List.mem_of_mem_filter hmem), ?_⟩
        have hp := List.of_mem_filter hmem
        intro hnil
        rw [hnil] at hp
        exact absurd hp (by decide)
      have hinv := foldl_parseLine_inv rest initialParseState initialParseState_inv hrest
      obtain ⟨c1, c2, c3, _, _, c6, _⟩ := hinv
      exact ⟨c1, c2, c3, c6⟩
    · rw [if_neg hld] at h
      exact absurd h (by simp)

/-! # Round trip, stage 4: replaying an encoded playlist -/

/-- On a well-formed tag raw line the parser loop dispatches the tag
    itself. -/
theorem parseLine_tag (st : ParseState) (t : Tag) (hg : GoodTag t) :
    parseLine st t.rawLine.data = procTag st t := by
  obtain ⟨h1, h2, h3, h4, h5⟩ := hg
  simp only [parseLine]
  rw [h3, if_pos h2, h5]

theorem segApplyTag_tags (s : MediaSegment) (t : Tag) :
    (segApplyTag s t).tags = s.tags ++ [t] := by
  unfold segApplyTag
  repeat' split
  all_goals rfl

theorem replayPost_tags (post : List Tag) :
    ∀ s, (replayPost post s).tags = s.tags ++ post := by
  induction post with
  | nil => intro s; rw [List.append_nil]; rfl
  | cons t rest ih =>
    intro s
    show (replayPost rest (segApplyTag s t)).tags = _
    rw [ih, segApplyTag_tags, List.append_assoc]
    rfl

/-- Dispatching a media-playlist-level tag with both contexts closed only
    appends the tag to the playlist tag list (possibly updating the
    version or independent-segments scalars). -/
theorem procTag_media_closed (st : ParseState) (t : Tag) (h : MTagOk t)
    (hcs : st.currentSegment = none) (hcv : st.currentVariant = none) :
    ∃ ver isg, procTag st t =
      { st with playlist := { st.playlist with
          tags := st.playlist.tags ++ [t], version := ver, independentSegments := isg } } := by
  obtain ⟨hg, hbad, hmedia⟩ := h
  obtain ⟨hbuf, hseg, hvar, hextinf, hstream⟩ := mTag_name_facts t.name hbad
  unfold procTag
  by_cases h1 : t.name = "EXT-X-VERSION"
  · rw [if_pos h1]
    exact ⟨_, st.playlist.independentSegments, rfl⟩
  rw [if_neg h1]
  by_cases h2 : t.name = "EXT-X-INDEPENDENT-SEGMENTS"
  · rw [if_pos h2]
    exact ⟨st.playlist.version, true, rfl⟩
  rw [if_neg h2, if_neg hstream, if_neg hextinf,
    if_neg (show ¬(bufferableTagName t.name = true) by rw [hbuf]; decide),
    if_neg hmedia, hcv, hcs]
  dsimp only
  rw [if_neg (show ¬(isSegmentLevelTag t.name = true) by rw [hseg]; decide),
    if_neg (show ¬(isVariantLevelTag t.name = true) by rw [hvar]; decide)]
  exact ⟨st.playlist.version, st.playlist.independentSegments, rfl⟩

/-- Replaying a block of media-playlist-level tag lines appends exactly
    those tags to the playlist tag list and touches nothing else the
    invariant tracks. -/
theorem fold_ptags (ts : List Tag) :
    ∀ st, (∀ t ∈ ts, MTagOk t) → st.currentSegment = none → st.currentVariant = none →
    ∃ st2, (ts.map (fun t => t.rawLine.data)).foldl parseLine st = st2 ∧
      st2.playlist.type = st.playlist.type ∧
      st2.playlist.tags = st.playlist.tags ++ ts ∧
      st2.playlist.segments = st.playlist.segments ∧
      st2.playlist.variants = st.playlist.variants ∧
      st2.currentSegment = none ∧ st2.currentVariant = none ∧
      st2.segmentTags = st.segmentTags ∧ st2.variantTags = st.variantTags := by
  induction ts with
  | nil =>
    intro st _ hcs hcv
    exact ⟨st, rfl, rfl, by simp, rfl, rfl, hcs, hcv, rfl, rfl⟩
  | cons t rest ih =>
    intro st hts hcs hcv
    have ht : MTagOk t := hts t (List.mem_cons_self _ _)
    obtain ⟨ver, isg, hpt⟩ := procTag_media_closed st t ht hcs hcv
    obtain ⟨st2, hfold, c1, c2, c3, c4, c5, c6, c7, c8⟩ :=
      ih ({ st with playlist := { st.playlist with
          tags := st.playlist.tags ++ [t], version := ver, independentSegments := isg } })
        (fun x hx => hts x (List.mem_cons_of_mem _ hx)) hcs hcv
    refine ⟨st2, ?_, ?_, ?_, ?_, ?_, c5, c6, c7, c8⟩
    · rw [List.map_cons, List.foldl_cons, parseLine_tag st t ht.1, hpt]
      exact hfold
    · rw [c1]
    · rw [c2]
      show (st.playlist.tags ++ [t]) ++ rest = st.playlist.tags ++ t :: rest
      rw [List.append_assoc]
      rfl
    · rw [c3]
    · rw [c4]

/-- A bufferable tag with no open segment context lands in the pending
    segment-tag buffer. -/
theorem procTag_bufferable (st : ParseState) (t : Tag)
    (hb : bufferableTagName t.name = true) (hcs : st.currentSegment = none) :
    procTag st t = { st with segmentTags := st.segmentTags ++ [t] } := by
  obtain ⟨-, -, n1, n2, n3, n4, -⟩ := bufferable_name_facts t.name hb
  unfold procTag
  rw [if_neg n1, if_neg n2, if_neg n3, if_neg n4, if_pos hb, hcs]

/-- Replaying a block of bufferable tag lines extends the pending
    segment-tag buffer by exactly that block. -/
theorem fold_pre (pre : List Tag) :
    ∀ st, (∀ t ∈ pre, GoodTag t ∧ bufferableTagName t.name = true) →
      st.currentSegment = none →
      (pre.map (fun t => t.rawLine.data)).foldl parseLine st
        = { st with segmentTags := st.segmentTags ++ pre } := by
  induction pre with
  | nil =>
    intro st _ _
    rw [show st.segmentTags ++ ([] : List Tag) = st.segmentTags from List.append_nil _]
    rfl
  | cons t rest ih =>
    intro st hp hcs
    have ht := hp t (List.mem_cons_self _ _)
    rw [List.map_cons, List.foldl_cons, parseLine_tag st t ht.1,
        procTag_bufferable st t ht.2 hcs,
        ih ({ st with segmentTags := st.segmentTags ++ [t] })
          (fun x hx => hp x (List.mem_cons_of_mem _ hx)) hcs]
    show ({ st with segmentTags := (st.segmentTags ++ [t]) ++ rest } : ParseState)
      = { st with segmentTags := st.segmentTags ++ t :: rest }
    rw [List.append_assoc]
    rfl

/-- An EXTINF tag opens a segment context over the pending buffer. -/
theorem procTag_extinf (st : ParseState) (e : Tag) (he : e.name = "EXTINF") :
    procTag st e = { st with
      currentSegment := some (mkSegmentFromExtinf st.segmentTags e)
      segmentTags := [] } := by
  unfold procTag
  rw [if_neg (show ¬(e.name = "EXT-X-VERSION") by rw [he]; decide),
    if_neg (show ¬(e.name = "EXT-X-INDEPENDENT-SEGMENTS") by rw [he]; decide),
    if_neg (show ¬(e.name = "EXT-X-STREAM-INF") by rw [he]; decide),
    if_pos he]

/-- A tag of unreserved name processed inside an open segment context
    (with no variant context) is applied to the open segment. -/
theorem procTag_post (st : ParseState) (t : Tag) (s : MediaSegment)
    (hok : PostNameOk t.name) (hcs : st.currentSegment = some s)
    (hcv : st.currentVariant = none) :
    procTag st t = { st with currentSegment := some (segApplyTag s t) } := by
  have h1 : t.name ≠ "EXT-X-VERSION" := fun hh => hok (by rw [hh]; decide)
  have h2 : t.name ≠ "EXT-X-INDEPENDENT-SEGMENTS" := fun hh => hok (by rw [hh]; decide)
  have h3 : t.name ≠ "EXT-X-STREAM-INF" := fun hh => hok (by rw [hh]; decide)
  have h4 : t.name ≠ "EXTINF" := fun hh => hok (by rw [hh]; decide)
  have h6 : t.name ≠ "EXT-X-MEDIA" := fun hh => hok (by rw [hh]; decide)
  unfold procTag
  rw [if_neg h1, if_neg h2, if_neg h3, if_neg h4]
  by_cases hb : bufferableTagName t.name = true
  · rw [if_pos hb, hcs]
  · rw [if_neg hb, if_neg h6, hcv, hcs]

/-- Replaying a block of in-context tag lines applies exactly those tags
    to the open segment, in order. -/
theorem fold_post (post : List Tag) :
    ∀ st s, (∀ t ∈ post, GoodTag t ∧ PostNameOk t.name) →
      st.currentSegment = some s → st.currentVariant = none →
      (post.map (fun t => t.rawLine.data)).foldl parseLine st
        = { st with currentSegment := some (replayPost post s) } := by
  induction post with
  | nil =>
    intro st s _ hcs _
    show st = _
    rw [show replayPost [] s = s from rfl, ← hcs]
  | cons t rest ih =>
    intro st s hp hcs hcv
    have ht := hp t (List.mem_cons_self _ _)
    rw [List.map_cons, List.foldl_cons, parseLine_tag st t ht.1,
        procTag_post st t s ht.2 hcs hcv,
        ih ({ st with currentSegment := some (segApplyTag s t) }) (segApplyTag s t)
          (fun x hx => hp x (List.mem_cons_of_mem _ hx)) rfl hcv]
    rfl

/-- A non-tag line closes the open segment context into the playlist. -/
theorem parseLine_uri (st : ParseState) (l : Line) (seg : MediaSegment)
    (htr : jsTrim l = l) (hl : l.head? ≠ some '#') (hcs : st.currentSegment = some seg) :
    parseLine st l =
      { st with playlist := { st.playlist with
          segments := some ((st.playlist.segments.getD [])
            ++ [{ seg with uri := String.mk l }]) }
                currentSegment := none
                segmentTags := [] } := by
  simp only [parseLine]
  rw [htr, if_neg hl, hcs]

/-- Every tag stored on a well-formed closed segment is well formed. -/
theorem SegWF_good (s : MediaSegment) (h : SegWF s) : ∀ t ∈ s.tags, GoodTag t := by
  obtain ⟨-, -, -, -, pre, e, post, hpre, he, hen, hpost, heq⟩ := h
  have htags : s.tags = (pre ++ [e]) ++ post := by
    rw [heq]
    show (replayPost post (mkSegmentFromExtinf pre e)).tags = (pre ++ [e]) ++ post
    rw [replayPost_tags]
    rfl
  rw [htags]
  intro t ht
  rcases List.mem_append.mp ht with h2 | h2
  · rcases List.mem_append.mp h2 with h3 | h3
    · exact (hpre t h3).1
    · rw [List.mem_singleton] at h3
      subst h3
      exact he
  · exact (hpost t h2).1

/-- Replaying the encoded block of one well-formed segment appends
    exactly that segment to the playlist and restores the closed state. -/
theorem fold_segment (s : MediaSegment) (hs : SegWF s) :
    ∀ st, st.currentSegment = none → st.currentVariant = none → st.segmentTags = [] →
      (s.tags.map (fun t => t.rawLine.data) ++ [s.uri.data]).foldl parseLine st
        = { st with playlist := { st.playlist with
                      segments := some ((st.playlist.segments.getD []) ++ [s]) }
                    currentSegment := none
                    segmentTags := [] } := by
  intro st hcs hcv hst
  obtain ⟨hune, huh, hut, huc, pre, e, post, hpre, he, hen, hpost, heq⟩ := hs
  have htags : s.tags = (pre ++ [e]) ++ post := by
    rw [heq]
    show (replayPost post (mkSegmentFromExtinf pre e)).tags = (pre ++ [e]) ++ post
    rw [replayPost_tags]
    rfl
  have hseg_eq : ({ replayPost post (mkSegmentFromExtinf pre e) with
      uri := String.mk s.uri.data } : MediaSegment) = s := by
    rw [heq]
  have hB : parseLine ({ st with segmentTags := pre }) e.rawLine.data
      = { st with currentSegment := some (mkSegmentFromExtinf pre e), segmentTags := [] } := by
    rw [parseLine_tag _ e he, procTag_extinf _ e hen]
  have hC : (post.map (fun t => t.rawLine.data)).foldl parseLine
        ({ st with currentSegment := some (mkSegmentFromExtinf pre e), segmentTags := [] })
      = { st with currentSegment := some (replayPost post (mkSegmentFromExtinf pre e))
                  segmentTags := [] } := by
    rw [fold_post post ({ st with currentSegment := some (mkSegmentFromExtinf pre e), segmentTags := [] }) (mkSegmentFromExtinf pre e) hpost rfl hcv]
  have hD : parseLine ({ st with
        currentSegment := some (replayPost post (mkSegmentFromExtinf pre e))
        segmentTags := [] }) s.uri.data
      = { st with playlist := { st.playlist with
                    segments := some ((st.playlist.segments.getD []) ++ [s]) }
                  currentSegment := none
                  segmentTags := [] } := by
    rw [parseLine_uri ({ st with currentSegment := some (replayPost post (mkSegmentFromExtinf pre e)), segmentTags := [] }) s.uri.data (replayPost post (mkSegmentFromExtinf pre e)) hut huh rfl]
    rw [hseg_eq]
  calc (s.tags.map (fun t => t.rawLine.data) ++ [s.uri.data]).foldl parseLine st
      = parseLine ((post.map (fun t => t.rawLine.data)).foldl parseLine
          (parseLine ((pre.map (fun t => t.rawLine.data)).foldl parseLine st)
            e.rawLine.data)) s.uri.data := by
        rw [htags, List.map_append, List.map_append, List.map_singleton,
          List.foldl_append, List.foldl_append, List.foldl_append]
        simp only [List.foldl_cons, List.foldl_nil]
    _ = parseLine ((post.map (fun t => t.rawLine.data)).foldl parseLine
          (parseLine ({ st with segmentTags := pre }) e.rawLine.data)) s.uri.data := by
        rw [fold_pre pre st hpre hcs, hst, List.nil_append]
    _ = { st with playlist := { st.playlist with
                    segments := some ((st.playlist.segments.getD []) ++ [s]) }
                  currentSegment := none
                  segmentTags := [] } := by
        rw [hB, hC, hD]

/-- Replaying the encoded blocks of a list of well-formed segments
    appends exactly those segments, in order. -/
theorem fold_segs (segs : List MediaSegment) :
    ∀ st, (∀ s ∈ segs, SegWF s) →
      st.currentSegment = none → st.currentVariant = none → st.segmentTags = [] →
      ∃ st2, (segs.flatMap (fun s => s.tags.map (fun t => t.rawLine.data)
          ++ [s.uri.data])).foldl parseLine st = st2 ∧
        st2.playlist.type = st.playlist.type ∧
        st2.playlist.tags = st.playlist.tags ∧
        st2.playlist.variants = st.playlist.variants ∧
        (segs = [] → st2.playlist.segments = st.playlist.segments) ∧
        (segs ≠ [] → st2.playlist.segments
          = some ((st.playlist.segments.getD []) ++ segs)) := by
  induction segs with
  | nil =>
    intro st _ hcs hcv hst
    exact ⟨st, rfl, rfl, rfl, rfl, fun _ => rfl, fun hne => absurd rfl hne⟩
  | cons s rest ih =>
    intro st hall hcs hcv hst
    have hsw := hall s (List.mem_cons_self _ _)
    obtain ⟨st2, hfold, c1, c2, c3, c4, c5⟩ :=
      ih ({ st with playlist := { st.playlist with
                      segments := some ((st.playlist.segments.getD []) ++ [s]) }
                    currentSegment := none
                    segmentTags := [] })
        (fun x hx => hall x (List.mem_cons_of_mem _ hx)) rfl hcv rfl
    refine ⟨st2, ?_, ?_, ?_, ?_, fun habs => absurd habs (List.cons_ne_nil s rest),
      fun _ => ?_⟩
    · rw [List.flatMap_cons, List.foldl_append, fold_segment s hsw st hcs hcv hst]
      exact hfold
    · rw [c1]
    · rw [c2]
    · rw [c3]
    · cases hr : rest with
      | nil =>
        rw [c4 hr]
      | cons s2 r2 =>
        rw [c5 (by rw [hr]; simp), hr]
        show some (((st.playlist.segments.getD []) ++ [s]) ++ (s2 :: r2))
          = some ((st.playlist.segments.getD []) ++ s :: s2 :: r2)
        rw [List.append_assoc]
        rfl

/-- parseM3U8 applied to a joined header-plus-lines text replays exactly
    the lines, when each line is nonblank, trim-fixed and clean. -/
theorem parseM3U8_rebuild (ls : List Line)
    (h : ∀ l ∈ ls, jsTrim l = l ∧ l ≠ [] ∧ CleanLine l) :
    parseM3U8 (String.mk (joinLinesJS (("#EXTM3U".data) :: ls)))
      = some ((ls.foldl parseLine initialParseState).playlist) := by
  have hcond : ∀ l ∈ (['#', 'E', 'X', 'T', 'M', '3', 'U'] : Line) :: ls,
      CleanLine l ∧ l.getLast? ≠ some '\r' := by
    intro l hl
    rcases List.mem_cons.mp hl with rfl | hmem
    · exact ⟨by unfold CleanLine; decide, by decide⟩
    · obtain ⟨ht, hne, hc⟩ := h l hmem
      exact ⟨hc, trimmed_getLast_ne_cr l ht⟩
  have hfilter : ((['#', 'E', 'X', 'T', 'M', '3', 'U'] : Line) :: ls).filter
        (fun l => !(jsTrim l).isEmpty)
      = (['#', 'E', 'X', 'T', 'M', '3', 'U'] : Line) :: ls := by
    rw [List.filter_eq_self]
    intro a ha
    rcases List.mem_cons.mp ha with rfl | hmem
    · decide
    · obtain ⟨ht, hne, -⟩ := h a hmem
      rw [ht]
      exact notEmpty_pred a hne
  simp only [parseM3U8]
  rw [splitLinesJS_joinLines ((['#', 'E', 'X', 'T', 'M', '3', 'U'] : Line) :: ls) hcond
    (by simp), hfilter]
  dsimp only
  rw [if_pos (show leadsWith (['#', 'E', 'X', 'T', 'M', '3', 'U'] : Line)
    (['#', 'E', 'X', 'T', 'M', '3', 'U'] : Line) = true by decide)]

/-- A media playlist produced by the parser survives encode-then-parse
    with the same kind, playlist tags and segments. -/
theorem mediaRoundTrip (p : M3U8Playlist) (hwf : PlaylistWF p) (hty : p.type = .media) :
    ∃ q, parseM3U8 (encodeM3U8 p) = some q ∧ q.type = .media ∧
      q.tags = p.tags ∧ q.segments = p.segments := by
  obtain ⟨hTags, hSegs, hSne, hVar⟩ := hwf
  have hmtag : ∀ t ∈ p.tags, MTagOk t := by
    intro t ht
    obtain ⟨hg, hbad, hmed⟩ := hTags t ht
    refine ⟨hg, hbad, fun hm => ?_⟩
    have h2 := hmed hm
    rw [hty] at h2
    exact absurd h2 (by decide)
  have hnotmaster : ¬(p.type = .master ∧ p.variants ≠ none) := by
    rintro ⟨hm, -⟩
    rw [hty] at hm
    exact absurd hm (by decide)
  rcases hSne with hnone | ⟨l, hsome, hlne⟩
  · have henc : encodeM3U8 p = String.mk (joinLinesJS
        (("#EXTM3U" :: p.tags.map Tag.rawLine).map String.data)) := by
      simp only [encodeM3U8]
      rw [if_neg hnotmaster, if_neg (fun hand => hand.2 hnone), List.append_nil]
    have hls : ∀ ld ∈ (p.tags.map Tag.rawLine).map String.data,
        jsTrim ld = ld ∧ ld ≠ [] ∧ CleanLine ld := by
      intro ld hld
      rw [List.map_map] at hld
      obtain ⟨t, ht, rfl⟩ := List.mem_map.mp hld
      obtain ⟨⟨g1, g2, g3, g4, g5⟩, -, -⟩ := hmtag t ht
      exact ⟨g3, g1, g4⟩
    obtain ⟨st2, hfold, c1, c2, c3, c4, c5, c6, c7, c8⟩ :=
      fold_ptags p.tags initialParseState hmtag rfl rfl
    refine ⟨st2.playlist, ?_, ?_, ?_, ?_⟩
    · rw [henc, List.map_cons, parseM3U8_rebuild _ hls, List.map_map,
        show (String.data ∘ Tag.rawLine) = (fun t : Tag => t.rawLine.data) from rfl, hfold]
    · rw [c1]
      rfl
    · rw [c2]
      show ([] : List Tag) ++ p.tags = p.tags
      rw [List.nil_append]
    · rw [c3, hnone]
      rfl
  · have henc : encodeM3U8 p = String.mk (joinLinesJS
        ((("#EXTM3U" :: p.tags.map Tag.rawLine)
          ++ l.flatMap (fun s => s.tags.map Tag.rawLine ++ [s.uri])).map String.data)) := by
      simp only [encodeM3U8]
      rw [if_neg hnotmaster, if_pos (⟨hty, by rw [hsome]; simp⟩ :
          p.type = .media ∧ p.segments ≠ none), hsome, Option.getD_some]
    have hgood : ∀ s ∈ l, SegWF s := by
      intro s hsm
      apply hSegs
      rw [hsome]
      exact hsm
    have hls : ∀ ld ∈ ((p.tags.map Tag.rawLine)
        ++ l.flatMap (fun s => s.tags.map Tag.rawLine ++ [s.uri])).map String.data,
        jsTrim ld = ld ∧ ld ≠ [] ∧ CleanLine ld := by
      intro ld hld
      obtain ⟨x, hx, rfl⟩ := List.mem_map.mp hld
      rcases List.mem_append.mp hx with hmem | hmem
      · obtain ⟨t, ht, rfl⟩ := List.mem_map.mp hmem
        obtain ⟨⟨g1, g2, g3, g4, g5⟩, -, -⟩ := hmtag t ht
        exact ⟨g3, g1, g4⟩
      · obtain ⟨s, hsm, hin⟩ := List.mem_flatMap.mp hmem
        obtain ⟨u1, u2, u3, u4, -⟩ := hgood s hsm
        rcases List.mem_append.mp hin with hmm | hmm
        · obtain ⟨t, ht, rfl⟩ := List.mem_map.mp hmm
          obtain ⟨g1, g2, g3, g4, g5⟩ := SegWF_good s (hgood s hsm) t ht
          exact ⟨g3, g1, g4⟩
        · rw [List.mem_singleton] at hmm
          subst hmm
          exact ⟨u3, u1, u4⟩
    obtain ⟨st1, hfold1, c1, c2, c3, c4, c5, c6, c7, c8⟩ :=
      fold_ptags p.tags initialParseState hmtag rfl rfl
    obtain ⟨st2, hfold2, d1, d2, d3, d4, d5⟩ :=
      fold_segs l st1 hgood c5 c6 c7
    refine ⟨st2.playlist, ?_, ?_, ?_, ?_⟩
    · rw [henc, List.cons_append, List.map_cons, parseM3U8_rebuild _ hls, List.map_append,
        List.foldl_append, List.map_map,
        show (String.data ∘ Tag.rawLine) = (fun t : Tag => t.rawLine.data) from rfl, hfold1]
      simp only [List.map_flatMap, List.map_append, List.map_map, List.map_cons,
        List.map_nil, show (String.data ∘ Tag.rawLine) = (fun t : Tag => t.rawLine.data)
          from rfl]
      rw [hfold2]
    · rw [d1, c1]
      rfl
    · rw [d2, c2]
      show ([] : List Tag) ++ p.tags = p.tags
      rw [List.nil_append]
    · rw [d5 hlne, c3, hsome]
      show some (([] : List MediaSegment) ++ l) = some l
      rw [List.nil_append]

theorem segEquiv_self_all (xs : List MediaSegment) : List.Forall₂ segEquiv xs xs := by
  induction xs with
  | nil => exact List.Forall₂.nil
  | cons x r ih => exact List.Forall₂.cons ⟨rfl, rfl, rfl, rfl, rfl⟩ ih

/-- C6, counterexample: the original claim quantifies over every text the
    parser accepts, but the degenerate master text (a STREAM-INF line
    that never receives its URI line) parses to a master-kind playlist
    with no variants, encodes to just the header, and re-parses as a
    media-kind playlist: the round trip does not even preserve the
    playlist kind, so the claimed equivalence fails. -/
theorem claim6_counterexample :
    parseM3U8 degenerateMasterText = some pDeg ∧
    parseM3U8 (encodeM3U8 pDeg) = some qDeg ∧
    pDeg.type = .master ∧ qDeg.type = .media ∧ ¬ playlistEquiv pDeg qDeg := by
  refine ⟨by with_unfolding_all decide, by with_unfolding_all decide, rfl, rfl,
    fun h => absurd h.1 (by decide)⟩

/-- C6, amended to media-kind parses: for every playlist text the parser
    accepts whose parse is a media-kind playlist, encoding and re-parsing
    yields an equivalent playlist: same kind, same playlist-level tag
    list, and pairwise-equivalent segments (same duration, title, URI,
    discontinuity flag and per-segment tags in order). -/
theorem claim6_amended (text : String) (p : M3U8Playlist)
    (hp : parseM3U8 text = some p) (hty : p.type = .media) :
    ∃ q, parseM3U8 (encodeM3U8 p) = some q ∧ playlistEquiv p q := by
  obtain ⟨q, hq, ht2, htags, hsegs⟩ := mediaRoundTrip p (parseM3U8_wf text p hp) hty
  refine ⟨q, hq, ?_, htags.symm, ?_⟩
  · rw [hty, ht2]
  · rw [hsegs]
    exact segEquiv_self_all _

/-- C6 witness: the amended round-trip theorem applied to the concrete
    media playlist text of one version tag, one EXTINF and one URI. -/
theorem claim6_witness :
    ∃ q, parseM3U8 (encodeM3U8 pW) = some q ∧ playlistEquiv pW q :=
  claim6_amended mediaTextW pW (by with_unfolding_all decide) rfl

end VibeStreamer
